import Mathlib

/-!
Verification development for the plan_expo analytic core.

This file gives a shallow embedding, in Lean, of the algorithmic heart of the
repository's Python scripts:

* `system/scripts/analyze_reflection.py` — checklist extraction
  (`parse_reflection_file`, here `parse_operations_done`) and the
  critical-event detector (`detect_critical_events`);
* `system/scripts/track_habit_streaks.py` — habit extraction
  (`extract_habits`), the per-day completion rule (`check_habit_completion`)
  and the streak calculator (`calculate_streaks`);
* `system/scripts/validate_goals.py` — per-file schema validation
  (`validate_goal_file`) and the overall run (`validate_all`);
* `system/scripts/auto_update_metrics.py` — the metrics aggregator
  (`update_goal_metrics`, `calculate_operations_percentage`).

Python strings are modelled as Lean `String` / `List Char`; regular-expression
scans of the source are translated into explicit, terminating character-list
scanners with the same matching semantics on the inputs at hand; Python `None`
becomes `Option`, and code paths that can raise return `Except Unit _`.
Machine floats only appear in the source as `round(x, 1)` over exact small
rationals and as `len * 0.5` / `count / 8 * 100`, all of which are exact in
binary floating point at the sizes involved, so they are modelled by exact
rational arithmetic with round-half-to-even.
-/

/-! ## Basic character and list utilities -/

/-- Lower-casing of a single character, covering the ASCII range and the
Russian alphabet (the only scripts appearing in this repository's data),
mirroring Python `str.lower` on such text. -/
def lowerChar (c : Char) : Char :=
  if 'A' ≤ c ∧ c ≤ 'Z' then Char.ofNat (c.toNat + 32)
  else if 'А' ≤ c ∧ c ≤ 'Я' then Char.ofNat (c.toNat + 32)
  else if c = 'Ё' then 'ё'
  else c

/-- Python regex `\w` on the repository's data: ASCII alphanumerics,
underscore, and Russian letters. -/
def isWordChar (c : Char) : Bool :=
  c.isAlphanum || c == '_' ||
  ('а' ≤ c && c ≤ 'я') || ('А' ≤ c && c ≤ 'Я') || c == 'ё' || c == 'Ё'

/-- Python `\s` / `str.strip` whitespace on the repository's data. -/
def wsChar (c : Char) : Bool :=
  c == ' ' || c == '\t' || c == '\n' || c == '\r' ||
  c == Char.ofNat 11 || c == Char.ofNat 12

/-- Does `p` occur as a contiguous substring of `l`? (Python `p in l` /
`re.search` of a literal pattern.) -/
def occursIn (p : List Char) : List Char → Bool
  | [] => p.isPrefixOf []
  | c :: t => p.isPrefixOf (c :: t) || occursIn p t

/-- Split a character list at newline characters; mirrors Python
`str.split('\n')` (so the result is always nonempty and keeps empty pieces). -/
def splitLines : List Char → List (List Char)
  | [] => [[]]
  | c :: t =>
    if c = '\n' then [] :: splitLines t
    else
      match splitLines t with
      | [] => [[c]]
      | h :: r => (c :: h) :: r

/-- Python `str.strip()`. -/
def trimWs (l : List Char) : List Char :=
  ((l.dropWhile wsChar).reverse.dropWhile wsChar).reverse

/-- Python `str.rstrip()` (used to mirror a regex `\s*\n` tail at line level). -/
def trimWsRight (l : List Char) : List Char :=
  (l.reverse.dropWhile wsChar).reverse

/-- Accumulator-based scan for maximal word-character runs (structural, so
that it evaluates inside the kernel). -/
def wordTokensAux : List Char → List Char → List (List Char)
  | [], acc => if acc.isEmpty then [] else [acc.reverse]
  | c :: t, acc =>
    if isWordChar c then wordTokensAux t (c :: acc)
    else if acc.isEmpty then wordTokensAux t []
    else acc.reverse :: wordTokensAux t []

/-- Maximal word-character runs, mirroring `re.findall(r'\w+', s)`. -/
def wordTokens (l : List Char) : List (List Char) :=
  wordTokensAux l []

/-- The keyword set of a string: lower-case it, take its word tokens and
de-duplicate, mirroring `set(re.findall(r'\w+', s.lower()))`. -/
def kwSet (s : String) : List (List Char) :=
  (wordTokens (s.toList.map lowerChar)).dedup

/-! ## Data model: reflections, critical events, habits -/

/-- A critical event as produced by `detect_critical_events`
(`analyze_reflection.py`, lines 25-78). -/
structure CriticalEvent where
  type : String
  keyword : String
  context : String
  confidence : String
deriving DecidableEq, Repr

/-- The record produced by `parse_reflection_file` (`analyze_reflection.py`,
lines 80-187), restricted to the fields consumed by the code under
verification.  Fields the source initialises to `None` are `Option`s; the
dictionary keys always exist, so `dict.get(key, default)` in the source always
returns the stored value (possibly `None`), never the default. -/
structure ReflectionData where
  operations_done : List String
  tactics_done : List String
  evidence_done : List String
  rating : Option Nat
  operations_percent : Option Nat
  tactics_percent : Option Nat
deriving DecidableEq, Repr

/-- A habit as produced by `extract_habits` (`track_habit_streaks.py`,
lines 55-87); the Python dict has a `trigger` key for implementation
intentions and an `anchor` key for tiny habits. -/
structure Habit where
  name : String
  type : String
  trigger : String := ""
  anchor : String := ""
  action : String := ""
deriving DecidableEq, Repr

/-! ## check_habit_completion (track_habit_streaks.py, lines 90-112) -/

/-- One iteration of the keyword-match loop: does the single operation's
keyword set contain at least 50% of the habit's keyword set?
`len(hk & ok) >= len(hk) * 0.5` is exact in floating point and equals
`2 * |hk ∩ ok| ≥ |hk|`. -/
def keywordOverlap (habitName op : String) : Bool :=
  let hk := kwSet habitName
  let ok := kwSet op
  decide (2 * (hk.filter (fun w => ok.contains w)).length ≥ hk.length)

/-- `check_habit_completion(habit, reflection_data)`.  Returns `.error ()`
exactly where the Python raises: when no operation reaches the keyword
threshold and `reflection_data['operations_percent']` is `None`, the
comparison `None >= 80` raises `TypeError` (the `.get` default `0` is dead
because the key always exists in parser output). -/
def check_habit_completion (habit : Habit) (r : ReflectionData) : Except Unit Bool :=
  if r.operations_done.any (fun op => keywordOverlap habit.name op) then
    .ok true
  else
    match r.operations_percent with
    | some p => .ok (decide (p ≥ 80))
    | none => .error ()

/-! ## calculate_streaks (track_habit_streaks.py, lines 123-223) -/

/-- One entry of `completion_history`. -/
structure DayEntry where
  date : Nat
  completed : Bool
  day_of_week : String
deriving DecidableEq, Repr

/-- The seven English weekday names produced by `date.strftime('%A')`. -/
def weekdayNames : List String :=
  ["Monday", "Tuesday", "Wednesday", "Thursday", "Friday", "Saturday", "Sunday"]

/-- Weekday name of an abstract day number (consecutive day numbers cycle
through the seven names, as calendar dates do). -/
def weekdayName (n : Nat) : String :=
  weekdayNames.getD (n % 7) "Monday"

/-- The completion judgement for one day of the loop in `calculate_streaks`
(lines 129-155): a missing reflection file gives `False`; the `try` block
turns any exception from parsing (`.error` file content) or from
`check_habit_completion` into `False`. -/
def dayCompleted (habit : Habit) (file : Option (Except Unit ReflectionData)) : Bool :=
  match file with
  | none => false
  | some (.error _) => false
  | some (.ok r) =>
    match check_habit_completion habit r with
    | .ok b => b
    | .error _ => false

/-- The history-building loop of `calculate_streaks` (lines 125-158):
`fs date` is the filesystem at the reflection path for that day — `none` if
the file does not exist, `some (.error ())` if parsing it raises, and
`some (.ok r)` if it parses to `r`.  The list is reversed to oldest-first. -/
def buildHistory (habit : Habit) (days_back today : Nat)
    (fs : Nat → Option (Except Unit ReflectionData)) : List DayEntry :=
  ((List.range days_back).map (fun i =>
    let date := today - i
    { date := date
      completed := dayCompleted habit (fs date)
      day_of_week := weekdayName date })).reverse

/-- Round half to even on an exact rational, the behaviour of Python `round`
on the (exactly representable) values arising in this code. -/
def roundHalfEven (q : ℚ) : ℤ :=
  if q - ⌊q⌋ < 1/2 then ⌊q⌋
  else if 1/2 < q - ⌊q⌋ then ⌊q⌋ + 1
  else if ⌊q⌋ % 2 = 0 then ⌊q⌋ else ⌊q⌋ + 1

/-- Python `round(x, 1)` on exact rationals. -/
def pyRound1 (q : ℚ) : ℚ :=
  (roundHalfEven (q * 10) : ℚ) / 10

/-- `sum(1 for e in l if e['completed']) / len(l) * 100 if l else 0`. -/
def rateOf (l : List DayEntry) : ℚ :=
  if l.isEmpty then 0
  else ((l.filter (fun e => e.completed)).length : ℚ) / (l.length : ℚ) * 100

/-- Current streak (lines 160-166): walk backwards counting completed days. -/
def currentStreakOf (l : List DayEntry) : Nat :=
  (l.reverse.takeWhile (fun e => e.completed)).length

/-- One iteration of the max-streak loop (lines 171-176): the state is
`(max_streak, temp_streak)`. -/
def streakStep (mt : Nat × Nat) (e : DayEntry) : Nat × Nat :=
  if e.completed then (max mt.1 (mt.2 + 1), mt.2 + 1) else (mt.1, 0)

/-- Max streak (lines 168-176): running counter, reset on incomplete days. -/
def maxStreakOf (l : List DayEntry) : Nat :=
  (l.foldl streakStep ((0 : Nat), (0 : Nat))).1

/-- One iteration of the `defaultdict(list)` grouping loop (lines 187-189):
append the completion flag to the entry's weekday bucket, creating the bucket
at the end (Python dict insertion order) on first sight. -/
def groupStep (acc : List (String × List Bool)) (e : DayEntry) :
    List (String × List Bool) :=
  if acc.any (fun p => p.1 == e.day_of_week) then
    acc.map (fun p =>
      if p.1 == e.day_of_week then (p.1, p.2 ++ [e.completed]) else p)
  else acc ++ [(e.day_of_week, [e.completed])]

/-- `defaultdict(list)` grouping of completions by weekday, in first-seen
(insertion) order (lines 187-189). -/
def groupDays (l : List DayEntry) : List (String × List Bool) :=
  l.foldl groupStep []

/-- `day_stats` (lines 191-194): per-weekday completion percentage (no
rounding), in insertion order. -/
def dayStatsOf (l : List DayEntry) : List (String × ℚ) :=
  (groupDays l).filterMap (fun p =>
    if p.2.isEmpty then none
    else some (p.1, ((p.2.filter id).length : ℚ) / (p.2.length : ℚ) * 100))

/-- `sorted(day_stats.items(), key=lambda x: x[1], reverse=True)`: a stable
sort, descending by rate. -/
def sortedDaysOf (l : List DayEntry) : List (String × ℚ) :=
  (dayStatsOf l).mergeSort (fun a b => decide (b.2 ≤ a.2))

/-- `best_days` (line 199). -/
def bestDaysOf (l : List DayEntry) : List String :=
  (((sortedDaysOf l).take 2).filter (fun p => decide (50 ≤ p.2))).map (fun p => p.1)

/-- `worst_days` (line 200): `sorted_days[-2:]` filtered below 50. -/
def worstDaysOf (l : List DayEntry) : List String :=
  (((sortedDaysOf l).drop ((sortedDaysOf l).length - 2)).filter
    (fun p => decide (p.2 < 50))).map (fun p => p.1)

/-- The statistics record returned by `calculate_streaks` (lines 213-223). -/
structure StreakStats where
  current_streak : Nat
  max_streak : Nat
  completion_rate_7d : ℚ
  completion_rate_30d : ℚ
  completion_rate_all : ℚ
  avg_per_week : ℚ
  best_days : List String
  worst_days : List String
  day_stats : List (String × ℚ)
deriving DecidableEq, Repr

/-- The arithmetic part of `calculate_streaks` (lines 160-223), acting on an
already-built oldest-first completion history. -/
def streakStatsOfHistory (l : List DayEntry) : StreakStats :=
  let last7 := if l.length ≥ 7 then l.drop (l.length - 7) else l
  let last30 := if l.length ≥ 30 then l.drop (l.length - 30) else l
  let weeks := l.length / 7
  let total := (l.filter (fun e => e.completed)).length
  { current_streak := currentStreakOf l
    max_streak := maxStreakOf l
    completion_rate_7d := pyRound1 (rateOf last7)
    completion_rate_30d := pyRound1 (rateOf last30)
    completion_rate_all := pyRound1 (rateOf l)
    avg_per_week := pyRound1 (if weeks > 0 then (total : ℚ) / (weeks : ℚ) else 0)
    best_days := bestDaysOf l
    worst_days := worstDaysOf l
    day_stats := dayStatsOf l }

/-- `calculate_streaks(habit, days_back)` over an abstract filesystem `fs`
and an abstract current day number `today`. -/
def calculate_streaks (habit : Habit) (days_back today : Nat)
    (fs : Nat → Option (Except Unit ReflectionData)) : StreakStats :=
  streakStatsOfHistory (buildHistory habit days_back today fs)

/-! ## parse_reflection_file: operations checklist extraction
(analyze_reflection.py, lines 103-112) -/

/-- The literal anchor of the checklist-block regex. -/
def opsHeader : List Char := "#### Операции:".toList

/-- Does this line carry the `#### Операции:` anchor of
`re.search(r'#### Операции:\s*\n(...)', content)`? The literal may be
preceded by arbitrary text (the search is unanchored), but on its line it may
only be followed by whitespace, which the regex's `\s*\n` then consumes. -/
def isOpsHeaderLine (l : List Char) : Bool :=
  opsHeader.isSuffixOf (trimWsRight l)

/-- Is this line matched by one repetition of the block pattern
`- \[[ x]\] .+`? The character class admits only a space or a lowercase `x`
(uppercase `X` is not in the class), and `.+` requires at least one further
character on the line. -/
def isChecklistLine (l : List Char) : Bool :=
  ("- [ ] ".toList.isPrefixOf l || "- [x] ".toList.isPrefixOf l) &&
  decide (6 < l.length)

/-- A line consumed by the `\s*` between the header and the first checklist
line (`\s*` may swallow whole whitespace-only lines). -/
def isWsLine (l : List Char) : Bool := l.all wsChar

/-- The checklist block captured by
`re.search(r'#### Операции:\s*\n((?:- \[[ x]\] .+\n?)+)', content)` at line
granularity: the first header occurrence followed (possibly after
whitespace-only lines swallowed by `\s*`) by at least one checklist line
wins, and the capture is the maximal run of consecutive checklist lines;
an occurrence with no checklist line after it does not match and the search
continues. -/
def findOpsBlock : List (List Char) → Option (List (List Char))
  | [] => none
  | l :: rest =>
    if isOpsHeaderLine l then
      match rest.dropWhile isWsLine with
      | [] => findOpsBlock rest
      | m :: ms =>
        if isChecklistLine m then some (m :: ms.takeWhile isChecklistLine)
        else findOpsBlock rest
    else findOpsBlock rest

/-- `re.sub(r'- \[[xX]\]\s*', '', line)` (line 110): remove every occurrence
of a checkbox marker together with the whitespace following it.  Written with
explicit fuel so that it is structural and evaluates inside the kernel; the
fuel `l.length + 1` supplied by `stripCheckbox` is always sufficient because
every step consumes at least one character. -/
def stripCheckboxAux : Nat → List Char → List Char
  | 0, l => l
  | _ + 1, [] => []
  | fuel + 1, c :: rest =>
    if "- [x]".toList.isPrefixOf (c :: rest) ||
        "- [X]".toList.isPrefixOf (c :: rest) then
      stripCheckboxAux fuel (((c :: rest).drop 5).dropWhile wsChar)
    else c :: stripCheckboxAux fuel rest

/-- `re.sub(r'- \[[xX]\]\s*', '', line)`. -/
def stripCheckbox (l : List Char) : List Char :=
  stripCheckboxAux (l.length + 1) l

/-- The body of the per-line loop of lines 106-112: lines that are nonempty
after stripping but are not checklist items are skipped; a line containing
`[x]` or `[X]` contributes its text with the checkbox syntax removed and
whitespace stripped, provided the result is nonempty. -/
def processOpsLine (acc : List String) (l : List Char) : List String :=
  if !(trimWs l).isEmpty && !("- [ ]".toList.isPrefixOf (trimWs l)) &&
      !("- [x]".toList.isPrefixOf (trimWs l)) then
    acc
  else if occursIn "[x]".toList l || occursIn "[X]".toList l then
    let action := trimWs (stripCheckbox l)
    if action.isEmpty then acc else acc ++ [String.mk action]
  else acc

/-- The `operations_done` field computed by `parse_reflection_file`
(lines 103-112).  The captured group joined with newlines, stripped and
re-split is exactly the captured line list (stripping can only remove
trailing whitespace of the last captured line, which the per-line processing
ignores anyway), so the loop runs over the captured lines directly. -/
def parse_operations_done (content : String) : List String :=
  match findOpsBlock (splitLines content.toList) with
  | none => []
  | some block => block.foldl processOpsLine []

/-- One generated checklist line `- [x] text` / `- [ ] text`. -/
def itemLine (b : Bool) (t : String) : List Char :=
  (if b then "- [x] " else "- [ ] ").toList ++ t.toList

/-- A synthetic reflection document: the operations header followed by one
generated checklist line per item. -/
def opsDoc (items : List (Bool × String)) : String :=
  String.mk ("#### Операции:".toList ++
    (items.map (fun p => '\n' :: itemLine p.1 p.2)).flatten)

/-! ## extract_habits (track_habit_streaks.py, lines 55-87) -/

/-- The `(.+?)(?:\n|$)` tail of both habit patterns: `.` cannot cross a
newline and the (non-greedy) group must be followed immediately by a newline
(consumed) or the end of the text, so the capture is everything up to the
first newline, required nonempty; the remainder starts after the newline. -/
def matchActionPart (cs : List Char) : Option (List Char × List Char) :=
  if (cs.takeWhile (fun c => c ≠ '\n')).isEmpty then none
  else some (cs.takeWhile (fun c => c ≠ '\n'),
    (cs.drop (cs.takeWhile (fun c => c ≠ '\n')).length).drop 1)

/-- Backtracking search for `(.+?)<sep>(.+?)(?:\n|$)` starting right after
the literal prefix: the first group grows one character at a time (it cannot
contain a newline); at each separator occurrence with a nonempty first group
the tail is tried, and a failing tail extends the first group past the
occurrence, exactly as the regex engine backtracks.  Fuel-structural; every
step consumes one character, so `length + 1` fuel always suffices. -/
def matchPairAux (sep : List Char) : Nat → List Char → List Char →
    Option (List Char × List Char × List Char)
  | 0, _, _ => none
  | _ + 1, _, [] => none
  | fuel + 1, acc, c :: rest =>
    if sep.isPrefixOf (c :: rest) && !acc.isEmpty then
      match matchActionPart ((c :: rest).drop sep.length) with
      | some (a, rem) => some (acc.reverse, a, rem)
      | none =>
        if c = '\n' then none else matchPairAux sep fuel (c :: acc) rest
    else if c = '\n' then none
    else matchPairAux sep fuel (c :: acc) rest

/-- `re.finditer(pre + r'(.+?)' + sep + r'(.+?)(?:\n|$)', text)`: at each
position try the literal prefix and the two groups; a successful match is
consumed whole (matches do not overlap), otherwise the scan advances one
character. -/
def scanPairsAux (pre sep : List Char) : Nat → List Char →
    List (List Char × List Char)
  | 0, _ => []
  | _ + 1, [] => []
  | fuel + 1, c :: rest =>
    if pre.isPrefixOf (c :: rest) then
      match matchPairAux sep ((c :: rest).length + 1) []
          ((c :: rest).drop pre.length) with
      | some (t, a, rem) => (t, a) :: scanPairsAux pre sep fuel rem
      | none => scanPairsAux pre sep fuel rest
    else scanPairsAux pre sep fuel rest

/-- All matches of the two-group habit pattern over the whole text. -/
def scanPairs (pre sep l : List Char) : List (List Char × List Char) :=
  scanPairsAux pre sep (l.length + 1) l

/-- `re.sub(r' → праздную:.*$', '', action)` (line 78) on the newline-free
captured action: everything from the first occurrence of the celebration
separator is removed. -/
def stripCelebration : List Char → List Char
  | [] => []
  | c :: rest =>
    if " → праздную:".toList.isPrefixOf (c :: rest) then []
    else c :: stripCelebration rest

/-- `extract_habits(goal_content)` (lines 55-87): implementation intentions
from `- ЕСЛИ (.+?) → ТО (.+?)(?:\n|$)`, then tiny habits from
`- После (.+?) → (.+?)(?:\n|$)` with the celebration suffix stripped from
the action; groups are `.strip()`-ped, and every match appends one habit
(no deduplication). -/
def extract_habits (goal_content : String) : List Habit :=
  (scanPairs "- ЕСЛИ ".toList " → ТО ".toList goal_content.toList).map
    (fun p =>
      let trigger := String.mk (trimWs p.1)
      let action := String.mk (trimWs p.2)
      { name := "ЕСЛИ " ++ trigger ++ " → ТО " ++ action,
        type := "implementation_intention", trigger := trigger,
        action := action })
  ++ (scanPairs "- После ".toList " → ".toList goal_content.toList).map
    (fun p =>
      let anchor := String.mk (trimWs p.1)
      let action := String.mk (stripCelebration (trimWs p.2))
      { name := "После " ++ anchor ++ " → " ++ action,
        type := "tiny_habit", anchor := anchor, action := action })

/-- A line of a synthetic goal document: an implementation-intention line,
a tiny-habit line, or any other line. -/
inductive GoalLine
  | ii (t a : String)
  | tiny (x a : String)
  | other (s : String)
deriving DecidableEq, Repr

/-- The characters of one synthetic goal line. -/
def goalLineChars : GoalLine → List Char
  | .ii t a => "- ЕСЛИ ".toList ++ t.toList ++ " → ТО ".toList ++ a.toList
  | .tiny x a => "- После ".toList ++ x.toList ++ " → ".toList ++ a.toList
  | .other s => s.toList

/-- A synthetic goal document, one line per entry, each newline-terminated. -/
def goalDoc (ls : List GoalLine) : String :=
  String.mk ((ls.map (fun l => goalLineChars l ++ ['\n'])).flatten)

/-- Does the first occurrence of `sep` in `t ++ sep` sit exactly at position
`t.length`? (Pins the non-greedy split of `(.+?)<sep>` to the intended
decomposition.) -/
def firstSepOnly (sep t : List Char) : Bool :=
  (List.range t.length).all (fun i => !(sep.isPrefixOf ((t ++ sep).drop i)))

/-- Well-formedness of a synthetic goal line: group texts are nonempty and
newline-free, the separator first occurs at the intended split, and a line
of one kind does not accidentally contain the other pattern's literal
prefix. -/
def goodGoalLine : GoalLine → Bool
  | .ii t a =>
    !t.toList.isEmpty && !a.toList.isEmpty &&
    !t.toList.contains '\n' && !a.toList.contains '\n' &&
    firstSepOnly " → ТО ".toList t.toList &&
    !occursIn "- После ".toList (goalLineChars (.ii t a))
  | .tiny x a =>
    !x.toList.isEmpty && !a.toList.isEmpty &&
    !x.toList.contains '\n' && !a.toList.contains '\n' &&
    firstSepOnly " → ".toList x.toList &&
    !occursIn "- ЕСЛИ ".toList (goalLineChars (.tiny x a))
  | .other s =>
    !s.toList.contains '\n' &&
    !occursIn "- ЕСЛИ ".toList s.toList &&
    !occursIn "- После ".toList s.toList

/-- The habit produced by one implementation-intention line. -/
def iiHabitOf (t a : String) : Habit :=
  { name := "ЕСЛИ " ++ String.mk (trimWs t.toList) ++ " → ТО " ++
      String.mk (trimWs a.toList),
    type := "implementation_intention",
    trigger := String.mk (trimWs t.toList),
    action := String.mk (trimWs a.toList) }

/-- The habit produced by one tiny-habit line. -/
def tinyHabitOf (x a : String) : Habit :=
  { name := "После " ++ String.mk (trimWs x.toList) ++ " → " ++
      String.mk (stripCelebration (trimWs a.toList)),
    type := "tiny_habit",
    anchor := String.mk (trimWs x.toList),
    action := String.mk (stripCelebration (trimWs a.toList)) }

/-! ## detect_critical_events (analyze_reflection.py, lines 25-78) -/

/-- The forced-change lexicon (lines 30-35), in source order. -/
def forced_keywords : List String :=
  ["авария", "потерял", "уволили", "болезнь", "кризис",
   "не могу", "невозможно", "форс-мажор", "вынужден",
   "пришлось", "обстоятельства", "потеря дохода", "потеря работы",
   "травм", "госпитал", "операция"]

/-- The voluntary-change lexicon (lines 38-42), in source order. -/
def voluntary_keywords : List String :=
  ["решил изменить", "переосмыслил", "понял, что",
   "новые приоритеты", "больше не актуально",
   "хочу сфокусироваться", "изменил приоритеты"]

/-- The hard-coded high-confidence subset (line 62). -/
def high_confidence_keywords : List String :=
  ["авария", "потерял", "уволили", "болезнь"]

/-- `content.lower()`. -/
def lowerStr (l : List Char) : List Char := l.map lowerChar

/-- Index of the first occurrence of `p` in `l`. -/
def firstOcc (p : List Char) : List Char → Option Nat
  | [] => if p.isPrefixOf [] then some 0 else none
  | c :: t =>
    if p.isPrefixOf (c :: t) then some 0 else (firstOcc p (c :: t).tail).map (· + 1)

/-- The context captured by `re.findall(r'.{0,100}' + kw + r'.{0,100}', content,
re.IGNORECASE | re.DOTALL)[0][:200]` (lines 55-61, 68-74): the first match
starts 100 characters (or at 0) before the first case-insensitive keyword
occurrence; the greedy `.{0,100}` then lands on the *last* occurrence within
100 characters of that start, the trailing `.{0,100}` takes up to 100 more
characters, and the result is truncated to 200 characters. -/
def contextSnippet (content : String) (k : String) : String :=
  match firstOcc k.toList (lowerStr content.toList) with
  | none => ""
  | some i1 =>
    String.mk (((content.toList.drop (i1 - 100)).take
      (((((List.range (i1 - 100 + 100 + 1)).filter
          (fun i => k.toList.isPrefixOf ((lowerStr content.toList).drop i))).getLast?).getD i1)
        + k.toList.length + 100 - (i1 - 100))).take 200)

/-- `detect_critical_events(content)` (lines 25-78): each keyword of either
lexicon found (case-insensitively, via the lowered text) anywhere in the
text produces exactly one event carrying that keyword, a context snippet and
a confidence tier; the inner `if matches:` of the source never fails when
the outer search succeeded.  The obstacle/insight section regexes of
lines 45-47 bind unused variables and are dead code. -/
def detect_critical_events (content : String) : List CriticalEvent :=
  (forced_keywords.filterMap (fun k =>
    if occursIn k.toList (lowerStr content.toList) then
      some { type := "FORCED_CHANGE", keyword := k,
             context := contextSnippet content k,
             confidence :=
               if high_confidence_keywords.contains k then "high"
               else "medium" }
    else none)) ++
  (voluntary_keywords.filterMap (fun k =>
    if occursIn k.toList (lowerStr content.toList) then
      some { type := "VOLUNTARY_CHANGE", keyword := k,
             context := contextSnippet content k,
             confidence := "medium" }
    else none))

/-! ## validate_goals.py: per-file validation and the overall run -/

/-- The three severity levels of `ValidationIssue` (lines 35-38). -/
inductive IssueLevel
  | critical
  | warning
  | recommendation
deriving DecidableEq, Repr

/-- The required goal sections and their display names (lines 128-133).
(The source wraps the display name in single quotation marks inside the
message; the surrounding quotation marks are elided here.) -/
def required_sections : List (String × String) :=
  [("## СТРАТЕГИЧЕСКИЙ УРОВЕНЬ", "Стратегический уровень"),
   ("## ТАКТИЧЕСКИЙ УРОВЕНЬ", "Тактический уровень"),
   ("## ОПЕРАЦИОННЫЙ УРОВЕНЬ", "Операционный уровень"),
   ("## ИСТОРИЯ ИЗМЕНЕНИЙ", "История изменений")]

/-- Missing-section issues (lines 135-141): CRITICAL per absent header. -/
def sectionIssues (content : String) : List (IssueLevel × String) :=
  required_sections.filterMap (fun ps =>
    if occursIn ps.1.toList content.toList then none
    else some (.critical, "Отсутствует секция " ++ ps.2))

/-- Search for `<label>` followed by `\s+` and then a position satisfying
`check` (after the maximal whitespace run — the alternatives all start with
non-whitespace, so backtracking inside the run can never succeed). -/
def searchLabel (label : List Char) (check : List Char → Bool) : List Char → Bool
  | [] => false
  | c :: t =>
    (label.isPrefixOf (c :: t) &&
      (match (c :: t).drop label.length with
       | [] => false
       | d :: r => wsChar d && check ((d :: r).dropWhile wsChar))) ||
    searchLabel label check t

/-- The four admissible status words (line 145). -/
def statusWords : List String := ["active", "completed", "paused", "cancelled"]

/-- `re.search(r'\*\*Статус:\*\*\s+(active|completed|paused|cancelled)')`. -/
def statusOk (content : String) : Bool :=
  searchLabel "**Статус:**".toList
    (fun l => statusWords.any (fun w => w.toList.isPrefixOf l)) content.toList

/-- `\d{4}-\d{2}-\d{2}` at the start of `l`. -/
def isDatePrefix (l : List Char) : Bool :=
  match l with
  | a :: b :: c :: d :: e :: f :: g :: h :: i :: j :: _ =>
    a.isDigit && b.isDigit && c.isDigit && d.isDigit && (e == '-') &&
    f.isDigit && g.isDigit && (h == '-') && i.isDigit && j.isDigit
  | _ => false

/-- `re.search(label + r'\s+(\d{4}-\d{2}-\d{2})')`. -/
def dateFieldOk (label : String) (content : String) : Bool :=
  searchLabel label.toList isDatePrefix content.toList

/-- Status issue (lines 144-151): CRITICAL when the field is absent or
carries none of the four enum values. -/
def statusIssues (content : String) : List (IssueLevel × String) :=
  if statusOk content then []
  else
    [(.critical,
      "Некорректный или отсутствующий статус (должен быть: active|completed|paused|cancelled)")]

/-- Date issues (lines 153-169): WARNING per missing/ill-formed date field. -/
def dateIssues (content : String) : List (IssueLevel × String) :=
  (if dateFieldOk "**Дата создания:**" content then []
   else [(.warning, "Отсутствует или некорректна дата создания (формат: YYYY-MM-DD)")]) ++
  (if dateFieldOk "**Последнее обновление:**" content then []
   else [(.warning, "Отсутствует или некорректно последнее обновление (формат: YYYY-MM-DD)")])

/-- `re.findall(r'(\d+)%', content)`: the maximal digit runs immediately
followed by a percent sign (a digit run not followed by `%` can contain no
match starting inside it, since every proper tail still ends at a digit). -/
def percentTokensAux : List Char → List Char → List (List Char)
  | [], _ => []
  | c :: t, acc =>
    if c.isDigit then percentTokensAux t (c :: acc)
    else if c == '%' && !acc.isEmpty then acc.reverse :: percentTokensAux t []
    else percentTokensAux t []

/-- All captured digit strings of `re.findall(r'(\d+)%', content)`. -/
def percentTokens (l : List Char) : List (List Char) :=
  percentTokensAux l []

/-- `int` of a captured digit string. -/
def parseDigits (l : List Char) : Nat :=
  l.foldl (fun a c => a * 10 + (c.toNat - 48)) 0

/-- Percent issues (lines 171-179): WARNING per captured value above 100,
the message echoing the captured digit string. -/
def percentIssues (content : String) : List (IssueLevel × String) :=
  (percentTokens content.toList).filterMap (fun tok =>
    if parseDigits tok > 100 then
      some (.warning, "Процент выше 100%: " ++ String.mk tok ++ "%")
    else none)

/-- `validate_goal_file` (lines 121-186): all four checks run in sequence on
the file's content; a read failure is caught and becomes one CRITICAL issue
(the exception text appended by the source is elided). -/
def validate_goal_file (g : Except Unit String) : List (IssueLevel × String) :=
  match g with
  | .error _ => [(.critical, "Ошибка чтения файла")]
  | .ok content =>
    sectionIssues content ++ statusIssues content ++ dateIssues content ++
      percentIssues content

/-- The filesystem state a validation run observes: the goals directory
(`none` when absent, else the read result of each `*.md` file), whether
`reflections/daily` exists, the stems of `*.md` files lying directly in
`daily/`, and the read results of all reflection files under it. -/
structure ValidationFS where
  goalsDir : Option (List (Except Unit String))
  dailyExists : Bool
  misplacedStems : List String
  reflectionFiles : List (Except Unit String)

/-- `re.match(r'(\d{4})-(\d{2})-(\d{2})', filename)`: anchored at the start
of the stem. -/
def matchesDateName (stem : String) : Bool :=
  isDatePrefix stem.toList

/-- `validate_reflections_structure` (lines 189-230), without `--fix`. -/
def validate_reflections_structure (fs : ValidationFS) : List (IssueLevel × String) :=
  if !fs.dailyExists then
    [(.critical, "Директория рефлексий не существует")]
  else
    fs.misplacedStems.map (fun stem =>
      if matchesDateName stem then
        (.critical, "Неправильная структура директорий рефлексии")
      else
        (.warning,
          "Некорректное имя файла рефлексии (ожидается YYYY-MM-DD.md): " ++ stem))

/-- The recommended reflection sections (lines 240-246). -/
def recommended_sections : List String :=
  ["## УТРО", "## ДЕНЬ", "## ВЕЧЕР", "## ПРОГРЕСС ЗА ДЕНЬ", "## РЕФЛЕКСИЯ"]

/-- `validate_reflection_file` (lines 233-265): at most one RECOMMENDATION
listing the missing sections; a read failure becomes one WARNING. -/
def validate_reflection_file (g : Except Unit String) : List (IssueLevel × String) :=
  match g with
  | .error _ => [(.warning, "Ошибка чтения файла рефлексии")]
  | .ok content =>
    if (recommended_sections.filter
        (fun sec => !occursIn sec.toList content.toList)).isEmpty then []
    else
      [(.recommendation, "Рекомендуется добавить секции: " ++
        String.intercalate ", " (recommended_sections.filter
          (fun sec => !occursIn sec.toList content.toList)))]

/-- The full issue list collected by `validate_all` (lines 268-298). -/
def validate_all_report (fs : ValidationFS) : List (IssueLevel × String) :=
  (match fs.goalsDir with
   | some files => (files.map validate_goal_file).flatten
   | none => [(.critical, "Директория целей не существует")]) ++
  validate_reflections_structure fs ++
  (fs.reflectionFiles.map validate_reflection_file).flatten

/-- `ValidationReport.has_critical` (lines 58-60). -/
def has_critical (report : List (IssueLevel × String)) : Bool :=
  !(report.filter (fun i => i.1 == IssueLevel.critical)).isEmpty

/-- The value returned by `validate_all` and passed to `sys.exit`
(lines 335-338 and 349-350). -/
def validate_all_exit (fs : ValidationFS) : Nat :=
  if has_critical (validate_all_report fs) then 1 else 0

/-! ## auto_update_metrics.py: update_goal_metrics (lines 88-161) -/

/-- `calculate_operations_percentage` (auto_update_metrics.py, lines 68-78).
The parser always stores the key, so `.get` returns the stored value; the
float expression `int((n / 8) * 100)` is exact (`n * 12.5` is a representable
half-integer) and equals `n * 100 / 8` in natural division. -/
def calculate_operations_percentage (r : ReflectionData) : Nat :=
  match r.operations_percent with
  | some p => p
  | none =>
    if r.operations_done.length > 0 then
      min 100 (r.operations_done.length * 100 / 8)
    else 0

/-- Fuel-driven decimal digit accumulator ( fuel ≥ 1 + number of digits). -/
def natCharsAux : Nat → Nat → List Char → List Char
  | 0, _, acc => acc
  | f + 1, n, acc =>
    if n < 10 then Char.ofNat (48 + n) :: acc
    else natCharsAux f (n / 10) (Char.ofNat (48 + n % 10) :: acc)

/-- Decimal rendering of a natural number, as Python `str(n)` interpolates
into the replacement strings. -/
def natChars (n : Nat) : List Char := natCharsAux (n + 1) n []

/-- Does the regex `pre(\d+)suf` match at the start of `l`?  Returns the
captured number and the matched length.  The digit run is maximal: both
suffixes used in the source (`/10` and `%`) start with a non-digit, so the
regex engine's backtracking out of the greedy `\d+` can never succeed and
first-position maximal-munch is exact. -/
def matchNumAt (pre suf l : List Char) : Option (Nat × Nat) :=
  if pre.isPrefixOf l then
    match (l.drop pre.length).takeWhile Char.isDigit with
    | [] => none
    | d :: ds =>
      if suf.isPrefixOf ((l.drop pre.length).drop (d :: ds).length) then
        some (parseDigits (d :: ds), pre.length + (d :: ds).length + suf.length)
      else none
  else none

/-- `re.search(pre(\d+)suf)`: the capture of the leftmost match. -/
def findNum (pre suf : List Char) : List Char → Option Nat
  | [] => none
  | c :: t =>
    match matchNumAt pre suf (c :: t) with
    | some (v, _) => some v
    | none => findNum pre suf t

/-- `re.sub(pre(\d+)suf, pre ++ new ++ suf)`: every non-overlapping match,
left to right, is replaced by the same statically computed text.  Each match
consumes at least one character, so fuel `length + 1` always suffices. -/
def subNumAux (pre suf new : List Char) : Nat → List Char → List Char
  | 0, l => l
  | _ + 1, [] => []
  | fuel + 1, c :: t =>
    match matchNumAt pre suf (c :: t) with
    | some (_, len) => pre ++ new ++ suf ++ subNumAux pre suf new fuel ((c :: t).drop len)
    | none => c :: subNumAux pre suf new fuel t

/-- `re.sub` over the whole text (fuel instantiated adequately). -/
def subNumAll (pre suf new l : List Char) : List Char :=
  subNumAux pre suf new (l.length + 1) l

/-- Does `pre\d\x7b4\x7d-\d\x7b2\x7d-\d\x7b2\x7d` match at the start of `l`?
(Fixed-count digit groups: no backtracking exists.) -/
def matchDateAt (pre l : List Char) : Bool :=
  pre.isPrefixOf l && isDatePrefix (l.drop pre.length)

/-- `re.sub` of the last-updated stamp (lines 129-133): each match (length
`pre.length + 10`) is replaced by `pre ++ new`. -/
def subDateAux (pre new : List Char) : Nat → List Char → List Char
  | 0, l => l
  | _ + 1, [] => []
  | fuel + 1, c :: t =>
    if matchDateAt pre (c :: t) then
      pre ++ new ++ subDateAux pre new fuel ((c :: t).drop (pre.length + 10))
    else c :: subDateAux pre new fuel t

/-- The date-stamp `re.sub` over the whole text. -/
def subDateAll (pre new l : List Char) : List Char :=
  subDateAux pre new (l.length + 1) l

/-- The literal head of the history pattern (line 142). -/
def histLit : List Char := "## ИСТОРИЯ ИЗМЕНЕНИЙ".toList

/-- The prefix of a whitespace run up to and including its last newline
(empty when the run has no newline).  `\s*\n` with greedy `\s*` backtracks
until the next character is a newline, i.e. it consumes exactly this much of
the maximal whitespace run. -/
def wsUptoLastNl (w : List Char) : List Char :=
  (w.reverse.dropWhile (fun c => c != '\n')).reverse

/-- Does `(## ИСТОРИЯ ИЗМЕНЕНИЙ\s*\n)` match at the start of `l`?  Returns
the matched (= captured) length. -/
def histMatchLen (l : List Char) : Option Nat :=
  if histLit.isPrefixOf l then
    match wsUptoLastNl ((l.drop histLit.length).takeWhile wsChar) with
    | [] => none
    | d :: r => some (histLit.length + (d :: r).length)
  else none

/-- `re.search` of the history pattern (line 143). -/
def histSearch : List Char → Bool
  | [] => false
  | c :: t => (histMatchLen (c :: t)).isSome || histSearch t

/-- `re.sub(history_pattern, '\\1\n{history_entry}\n')` (lines 144-148):
each match is replaced by the captured text, a newline, the entry, and a
newline. -/
def histSubAux (entry : List Char) : Nat → List Char → List Char
  | 0, l => l
  | _ + 1, [] => []
  | fuel + 1, c :: t =>
    match histMatchLen (c :: t) with
    | some len =>
      (c :: t).take len ++ '\n' :: (entry ++ '\n' :: histSubAux entry fuel ((c :: t).drop len))
    | none => c :: histSubAux entry fuel t

/-- The history `re.sub` over the whole text. -/
def histSubAll (entry l : List Char) : List Char :=
  histSubAux entry (l.length + 1) l

/-- Literal skeleton of `\*\*Текущий прогресс:\*\* (\d+)/10` (line 99). -/
def progressPre : List Char := "**Текущий прогресс:** ".toList

/-- Suffix of the evidence pattern. -/
def progressSuf : List Char := "/10".toList

/-- Literal skeleton of `\*\*Выполнение:\*\* (\d+)%` (line 118). -/
def percentPre : List Char := "**Выполнение:** ".toList

/-- Suffix of the habits pattern. -/
def percentSuf : List Char := "%".toList

/-- Literal head of the last-updated pattern (line 130). -/
def datePre : List Char := "**Последнее обновление:** ".toList

/-- The `history_entry` f-string (lines 137-139). -/
def historyEntry (today dateStr : String) (ev pc : Nat) : List Char :=
  "- ".toList ++ today.toList ++
  ": [PROGRESS] Автообновление метрик на основе рефлексии за ".toList ++
  dateStr.toList ++
  "\n  - **Детали:** Обновлены метрики: доказательств идентичности +".toList ++
  natChars ev ++ ", выполнение операций ".toList ++ natChars pc ++ "%\n".toList

/-- Step 1 (lines 96-112): when the day has evidence and the progress field
is found, every occurrence is rewritten to `min 10 (p + ev)` (from the FIRST
match's value `p`) and the update flag is raised. -/
def progressStep (ev : Nat) (content : List Char) : List Char × Bool :=
  if ev > 0 then
    match findNum progressPre progressSuf content with
    | some p =>
      (subNumAll progressPre progressSuf (natChars (min 10 (p + ev))) content, true)
    | none => (content, false)
  else (content, false)

/-- Step 2 (lines 115-125): when the computed percentage is positive the
substitution runs (possibly matching nothing) and the update flag is raised
regardless of whether any text changed. -/
def percentStep (pc : Nat) (content : List Char) : List Char × Bool :=
  if pc > 0 then (subNumAll percentPre percentSuf (natChars pc) content, true)
  else (content, false)

/-- Step 3 (lines 128-133): the date stamp is rewritten unconditionally and
never raises the update flag. -/
def dateStep (today : String) (content : List Char) : List Char :=
  subDateAll datePre today.toList content

/-- Step 4 (lines 136-151): insert the history entry below the history
header, or append a fresh history section when the pattern is absent. -/
def histStep (entry content : List Char) : List Char :=
  if histSearch content then histSubAll entry content
  else content ++ ("\n## ИСТОРИЯ ИЗМЕНЕНИЙ\n\n".toList ++ (entry ++ ['\n']))

/-- `update_goal_metrics` (lines 88-161) on the file's content: the four
steps in source order; the history step runs only under the update flag, and
the returned Boolean is the flag. -/
def update_goal_metrics (r : ReflectionData) (today dateStr : String)
    (content : List Char) : List Char × Bool :=
  if ((progressStep r.evidence_done.length content).2 ||
      (percentStep (calculate_operations_percentage r)
        (progressStep r.evidence_done.length content).1).2) then
    (histStep
      (historyEntry today dateStr r.evidence_done.length
        (calculate_operations_percentage r))
      (dateStep today
        (percentStep (calculate_operations_percentage r)
          (progressStep r.evidence_done.length content).1).1),
     true)
  else
    (dateStep today
      (percentStep (calculate_operations_percentage r)
        (progressStep r.evidence_done.length content).1).1,
     false)

/-- The on-disk content after the call (lines 154-161): the transformed text
is written only when the flag is raised; otherwise the file keeps its
original content (the discarded local changes include the date restamp). -/
def update_goal_file (r : ReflectionData) (today dateStr : String)
    (content : List Char) : List Char :=
  if (update_goal_metrics r today dateStr content).2 then
    (update_goal_metrics r today dateStr content).1
  else content

/-- Generator of a well-formed goal document carrying all four metric
fields: evidence progress `p`, habit percentage `q`, a date stamp `d0`, and
an empty history section. -/
def goalMetricsDoc (p q : Nat) (d0 : String) : List Char :=
  "# Цель\n**Текущий прогресс:** ".toList ++ natChars p ++
  "/10\n**Выполнение:** ".toList ++ natChars q ++
  "%\n**Последнее обновление:** ".toList ++ d0.toList ++
  "\n## ИСТОРИЯ ИЗМЕНЕНИЙ\n".toList

/-- The same document with refreshed metric values, the new date stamp, and
the history entry inserted below the history header. -/
def goalMetricsDocUpdated (p q : Nat) (today : String) (entry : List Char) :
    List Char :=
  "# Цель\n**Текущий прогресс:** ".toList ++ natChars p ++
  "/10\n**Выполнение:** ".toList ++ natChars q ++
  "%\n**Последнее обновление:** ".toList ++ today.toList ++
  "\n## ИСТОРИЯ ИЗМЕНЕНИЙ\n\n".toList ++ entry ++ ['\n']

/-- Does the pattern head `pre` fail to match at every start position inside
`L`, with the mismatch witnessed inside `L` itself (so independent of what
follows `L`)?  Decidable on concrete literals. -/
def noStartIn (pre L : List Char) : Bool :=
  (List.range L.length).all (fun i =>
    (List.range pre.length).any (fun j =>
      match pre[j]?, L[i + j]? with
      | some a, some b => a != b
      | _, _ => false))

/-! ## Concrete example data used by witnesses and counterexamples -/

def exHabit : Habit :=
  { name := "ЕСЛИ устал → ТО отдыхаю", type := "implementation_intention",
    trigger := "устал", action := "отдыхаю" }

def exRefl : ReflectionData :=
  { operations_done := [], tactics_done := [], evidence_done := [],
    rating := none, operations_percent := none, tactics_percent := none }

/-- A reflection record with a given recorded operations percentage. -/
def reflWithPercent (p : Option Nat) : ReflectionData :=
  { operations_done := [], tactics_done := [], evidence_done := [],
    rating := none, operations_percent := p, tactics_percent := none }

/-- A 10-day synthetic filesystem: days 0-6 (the oldest seven of the window
ending at day 9) have a fully successful reflection, days 7-9 a failed one. -/
def fs3 : Nat → Option (Except Unit ReflectionData) := fun n =>
  if n ≤ 6 then some (.ok (reflWithPercent (some 100)))
  else some (.ok (reflWithPercent (some 0)))

def habit3 : Habit :=
  { name := "После зарядки → пью воду", type := "tiny_habit",
    anchor := "зарядки", action := "пью воду" }

/-- A parsed reflection with one evidence entry, no operations and no
recorded percent (C8 counterexample data). -/
def rdC8 : ReflectionData :=
  { operations_done := [], tactics_done := [], evidence_done := ["сделал"],
    rating := none, operations_percent := none, tactics_percent := none }

/-- A goal file whose evidence counter is already saturated at 10/10 and
which carries no percent field. -/
def goalC8 : List Char :=
  "**Текущий прогресс:** 10/10\n## ИСТОРИЯ ИЗМЕНЕНИЙ\n".toList

/-- A parsed reflection with two evidence entries and a recorded operations
percent of 40 (C8 witness data). -/
def rdC8w : ReflectionData :=
  { operations_done := [], tactics_done := [], evidence_done := ["a", "b"],
    rating := none, operations_percent := some 40, tactics_percent := none }

/-! ## Theorems -/

/-- Claim C1: for every habit and every day in the lookback window, the day is
judged completed iff (a) some `operations_done` entry's keyword set contains
at least 50% of the habit's word-token keyword set (case-insensitive), or
(b) the recorded `operations_percent` is `≥ 80` (a `None` percent makes (b)
false: the comparison raises and the per-day `except` catches it).  A missing
reflection file or a parse failure judges the day not completed, and each
day's judgement is computed independently, so a per-day failure never aborts
the streak computation for the other days: the history's completion column is
exactly the pointwise judgement over the window. -/
theorem claim1_completion_rule (habit : Habit) (days_back today : Nat)
    (fs : Nat → Option (Except Unit ReflectionData)) :
    (∀ r : ReflectionData,
      dayCompleted habit (some (.ok r)) =
        (r.operations_done.any (fun op => keywordOverlap habit.name op) ||
          match r.operations_percent with
          | some p => decide (p ≥ 80)
          | none => false))
    ∧ dayCompleted habit none = false
    ∧ dayCompleted habit (some (.error ())) = false
    ∧ (buildHistory habit days_back today fs).map (fun e => e.completed) =
        ((List.range days_back).map
          (fun i => dayCompleted habit (fs (today - i)))).reverse := by
  refine ⟨?_, rfl, rfl, ?_⟩
  · intro r
    unfold dayCompleted check_habit_completion
    cases h : r.operations_done.any (fun op => keywordOverlap habit.name op) <;>
      cases hp : r.operations_percent <;> simp [h, hp]
  · simp [buildHistory, List.map_reverse, List.map_map]

/-- Claim C10: when a parsed reflection stores `operations_percent = None`
and no `operations_done` entry reaches the 50% keyword-overlap threshold,
`check_habit_completion` raises (`None >= 80` is ill-typed, the `.get`
default `0` being dead because the key exists), and `calculate_streaks`
recovers only through the bare `except` of its per-day loop, recording the
day as not completed. -/
theorem claim10_none_percent_raises (habit : Habit) (r : ReflectionData)
    (h1 : r.operations_percent = none)
    (h2 : r.operations_done.any (fun op => keywordOverlap habit.name op) = false) :
    check_habit_completion habit r = .error () ∧
    dayCompleted habit (some (.ok r)) = false := by
  unfold dayCompleted check_habit_completion
  simp [h1, h2]

/-- Witness for claim C10 at a concrete habit and reflection record. -/
theorem claim10_witness :
    check_habit_completion exHabit exRefl = .error () ∧
    dayCompleted exHabit (some (.ok exRefl)) = false :=
  claim10_none_percent_raises exHabit exRefl rfl rfl

/-- Counterexample to claim C3: on the 10-day history in which days 1-7 are
completed and days 8-10 are not (exhibited by the first conjunct), the
trailing 7-day sub-window (days 4-10) contains four completed days, so the
code returns `completion_rate_7d = 57.1`, not `round(3/7*100, 1) = 42.9` as
the claim states. -/
theorem claim3_counterexample :
    (buildHistory habit3 10 9 fs3).map (fun e => e.completed) =
      (List.replicate 7 true ++ List.replicate 3 false) ∧
    (calculate_streaks habit3 10 9 fs3).completion_rate_7d ≠
      pyRound1 ((3 : ℚ) / 7 * 100) := by
  constructor
  · decide
  · have h1 : (calculate_streaks habit3 10 9 fs3).completion_rate_7d = 571 / 10 := by
      show (streakStatsOfHistory (buildHistory habit3 10 9 fs3)).completion_rate_7d = 571 / 10
      have h : rateOf
          (if (buildHistory habit3 10 9 fs3).length ≥ 7 then
            (buildHistory habit3 10 9 fs3).drop ((buildHistory habit3 10 9 fs3).length - 7)
          else buildHistory habit3 10 9 fs3) = (4 : ℚ) / 7 * 100 := by
        norm_num [buildHistory, fs3, habit3, reflWithPercent, dayCompleted,
          check_habit_completion, weekdayName, rateOf, List.filter, List.range_succ]
      show pyRound1 _ = 571 / 10
      rw [h]
      unfold pyRound1 roundHalfEven
      norm_num
    have h2 : pyRound1 ((3 : ℚ) / 7 * 100) = 429 / 10 := by
      unfold pyRound1 roundHalfEven
      norm_num
    rw [h1, h2]
    norm_num

/-- Claim C3 as amended: for the 10-day completion history in which days 1-7
are completed and days 8-10 are not, the streak calculator returns
`current_streak = 0`, `max_streak = 7`, and
`completion_rate_7d = round(4/7*100, 1)`: the trailing 7-day sub-window is
days 4-10, which contains four completed days (days 4-7), not three. -/
theorem claim3_amended :
    (buildHistory habit3 10 9 fs3).map (fun e => e.completed) =
      (List.replicate 7 true ++ List.replicate 3 false) ∧
    (calculate_streaks habit3 10 9 fs3).current_streak = 0 ∧
    (calculate_streaks habit3 10 9 fs3).max_streak = 7 ∧
    (calculate_streaks habit3 10 9 fs3).completion_rate_7d =
      pyRound1 ((4 : ℚ) / 7 * 100) := by
  refine ⟨by decide, by decide, by decide, ?_⟩
  have h1 : (calculate_streaks habit3 10 9 fs3).completion_rate_7d = 571 / 10 := by
    show (streakStatsOfHistory (buildHistory habit3 10 9 fs3)).completion_rate_7d = 571 / 10
    have h : rateOf
        (if (buildHistory habit3 10 9 fs3).length ≥ 7 then
          (buildHistory habit3 10 9 fs3).drop ((buildHistory habit3 10 9 fs3).length - 7)
        else buildHistory habit3 10 9 fs3) = (4 : ℚ) / 7 * 100 := by
      norm_num [buildHistory, fs3, habit3, reflWithPercent, dayCompleted,
        check_habit_completion, weekdayName, rateOf, List.filter, List.range_succ]
    show pyRound1 _ = 571 / 10
    rw [h]
    unfold pyRound1 roundHalfEven
    norm_num
  have h2 : pyRound1 ((4 : ℚ) / 7 * 100) = 571 / 10 := by
    unfold pyRound1 roundHalfEven
    norm_num
  rw [h1, h2]

/-! ### Helper lemmas for the streak-statistics invariants -/

theorem foldl_streakStep_snd (l : List DayEntry) :
    (l.foldl streakStep ((0:Nat), (0:Nat))).2 = currentStreakOf l := by
  induction l using List.reverseRecOn with
  | nil => rfl
  | append_singleton l e ih =>
    rw [List.foldl_append]
    unfold currentStreakOf
    rw [List.reverse_append]
    simp only [List.reverse_singleton, List.singleton_append, List.takeWhile_cons]
    unfold currentStreakOf at ih
    cases hc : e.completed
    · simp [streakStep, hc]
    · simp only [List.foldl_cons, List.foldl_nil, streakStep, hc, if_true,
        List.length_cons]
      rw [← ih]

theorem foldl_streakStep_le (l : List DayEntry) :
    ∀ mt : Nat × Nat, mt.2 ≤ mt.1 →
      (l.foldl streakStep mt).2 ≤ (l.foldl streakStep mt).1 := by
  induction l with
  | nil => intro mt h; exact h
  | cons e t ih =>
    intro mt h
    simp only [List.foldl_cons]
    apply ih
    cases hc : e.completed
    · simp [streakStep, hc]
    · simp only [streakStep, hc, if_true]
      exact Nat.le_max_right mt.1 (mt.2 + 1)

theorem current_le_max (l : List DayEntry) : currentStreakOf l ≤ maxStreakOf l := by
  rw [← foldl_streakStep_snd]
  exact foldl_streakStep_le l (0, 0) (Nat.le_refl 0)


theorem rateOf_nonneg (l : List DayEntry) : 0 ≤ rateOf l := by
  unfold rateOf
  split
  · exact le_refl 0
  · positivity

theorem rateOf_le_100 (l : List DayEntry) : rateOf l ≤ 100 := by
  unfold rateOf
  split
  · norm_num
  · rename_i h
    have hn : 0 < l.length := by
      cases l
      · simp at h
      · simp
    have hq : (0:ℚ) < (l.length : ℚ) := by exact_mod_cast hn
    have hf : ((l.filter (fun e => e.completed)).length : ℚ) ≤ (l.length : ℚ) := by
      exact_mod_cast List.length_filter_le _ l
    have : ((l.filter (fun e => e.completed)).length : ℚ) / (l.length : ℚ) ≤ 1 :=
      (div_le_one hq).mpr hf
    nlinarith

theorem roundHalfEven_nonneg (q : ℚ) (h : 0 ≤ q) : 0 ≤ roundHalfEven q := by
  unfold roundHalfEven
  have hf : (0:ℤ) ≤ ⌊q⌋ := Int.le_floor.mpr (by exact_mod_cast h)
  split_ifs <;> omega

theorem roundHalfEven_le_of_le (q : ℚ) (B : ℤ) (h : q ≤ B) : roundHalfEven q ≤ B := by
  unfold roundHalfEven
  have hfB : ⌊q⌋ ≤ B := by
    calc ⌊q⌋ ≤ ⌊(B:ℚ)⌋ := Int.floor_le_floor h
    _ = B := Int.floor_intCast B
  have hlt : (1:ℚ)/2 ≤ q - ⌊q⌋ → ⌊q⌋ < B := by
    intro hr
    have h1 : (⌊q⌋ : ℚ) < q := by linarith
    have h2 : (⌊q⌋ : ℚ) < (B : ℚ) := lt_of_lt_of_le h1 h
    exact_mod_cast h2
  split_ifs with h1 h2 h3
  · exact hfB
  · have := hlt (le_of_lt h2)
    omega
  · exact hfB
  · have h4 : (1:ℚ)/2 ≤ q - ⌊q⌋ := by
      push_neg at h1
      exact h1
    have := hlt h4
    omega

theorem pyRound1_nonneg (q : ℚ) (h : 0 ≤ q) : 0 ≤ pyRound1 q := by
  unfold pyRound1
  have := roundHalfEven_nonneg (q * 10) (by positivity)
  have h2 : (0:ℚ) ≤ (roundHalfEven (q * 10) : ℚ) := by exact_mod_cast this
  linarith

theorem pyRound1_le_100 (q : ℚ) (h : q ≤ 100) : pyRound1 q ≤ 100 := by
  unfold pyRound1
  have := roundHalfEven_le_of_le (q * 10) 1000 (by push_cast; linarith)
  have h2 : ((roundHalfEven (q * 10)) : ℚ) ≤ 1000 := by exact_mod_cast this
  linarith


theorem groupStep_keys (acc : List (String × List Bool)) (e : DayEntry) :
    (groupStep acc e).map Prod.fst ⊆ acc.map Prod.fst ++ [e.day_of_week] := by
  unfold groupStep
  split
  · intro k hk
    simp only [List.map_map, List.mem_map, Function.comp] at hk
    obtain ⟨p, hp, hpk⟩ := hk
    apply List.mem_append_left
    apply List.mem_map.mpr
    refine ⟨p, hp, ?_⟩
    by_cases h : (p.1 == e.day_of_week) = true <;> simp [h] at hpk <;> simp [hpk]
  · intro k hk
    simp only [List.map_append, List.map_cons, List.map_nil] at hk
    exact hk

theorem groupDays_keys (l : List DayEntry) :
    ∀ acc : List (String × List Bool),
      (l.foldl groupStep acc).map Prod.fst ⊆
        acc.map Prod.fst ++ l.map (fun e => e.day_of_week) := by
  induction l with
  | nil => intro acc; simp
  | cons e t ih =>
    intro acc
    simp only [List.foldl_cons]
    intro k hk
    have h1 := ih (groupStep acc e) hk
    rcases List.mem_append.mp h1 with h2 | h2
    · have h3 := groupStep_keys acc e h2
      rcases List.mem_append.mp h3 with h4 | h4
      · exact List.mem_append_left _ h4
      · apply List.mem_append_right
        simp only [List.mem_singleton] at h4
        simp [h4]
    · apply List.mem_append_right
      simp [h2]

theorem weekdayName_mem (n : Nat) : weekdayName n ∈ weekdayNames := by
  unfold weekdayName
  have h : n % 7 < 7 := Nat.mod_lt _ (by norm_num)
  interval_cases h : n % 7 <;> decide

theorem dayStats_key_weekday (habit : Habit) (days_back today : Nat)
    (fs : Nat → Option (Except Unit ReflectionData)) :
    ∀ p ∈ dayStatsOf (buildHistory habit days_back today fs),
      p.1 ∈ weekdayNames := by
  intro p hp
  unfold dayStatsOf at hp
  obtain ⟨q, hq, hqp⟩ := List.mem_filterMap.mp hp
  have hk : p.1 ∈ (groupDays (buildHistory habit days_back today fs)).map Prod.fst := by
    apply List.mem_map.mpr
    refine ⟨q, hq, ?_⟩
    by_cases h : q.2.isEmpty <;> simp [h] at hqp
    rw [← hqp]
  have h2 := groupDays_keys (buildHistory habit days_back today fs) [] hk
  simp only [List.map_nil, List.nil_append] at h2
  unfold buildHistory at h2
  rw [List.map_reverse, List.map_map, List.mem_reverse] at h2
  obtain ⟨i, _, hi⟩ := List.mem_map.mp h2
  rw [← hi]
  exact weekdayName_mem _


theorem bestDays_sound (l : List DayEntry) :
    ∀ d ∈ bestDaysOf l,
      (dayStatsOf l).any (fun p => p.1 == d && decide (50 ≤ p.2)) = true := by
  intro d hd
  unfold bestDaysOf at hd
  obtain ⟨p, hp, hpd⟩ := List.mem_map.mp hd
  have hp2 := List.mem_filter.mp hp
  have hmem : p ∈ dayStatsOf l := by
    have := List.take_subset 2 (sortedDaysOf l) hp2.1
    unfold sortedDaysOf at this
    exact (List.mem_mergeSort).mp this
  apply List.any_eq_true.mpr
  refine ⟨p, hmem, ?_⟩
  rw [hpd]
  simp [hp2.2]

theorem worstDays_sound (l : List DayEntry) :
    ∀ d ∈ worstDaysOf l,
      (dayStatsOf l).any (fun p => p.1 == d && decide (p.2 < 50)) = true := by
  intro d hd
  unfold worstDaysOf at hd
  obtain ⟨p, hp, hpd⟩ := List.mem_map.mp hd
  have hp2 := List.mem_filter.mp hp
  have hmem : p ∈ dayStatsOf l := by
    have := List.drop_subset ((sortedDaysOf l).length - 2) (sortedDaysOf l) hp2.1
    unfold sortedDaysOf at this
    exact (List.mem_mergeSort).mp this
  apply List.any_eq_true.mpr
  refine ⟨p, hmem, ?_⟩
  rw [hpd]
  simp [hp2.2]

theorem bestDays_len (l : List DayEntry) : (bestDaysOf l).length ≤ 2 := by
  unfold bestDaysOf
  rw [List.length_map]
  calc (((sortedDaysOf l).take 2).filter _).length
      ≤ ((sortedDaysOf l).take 2).length := List.length_filter_le _ _
    _ ≤ 2 := by rw [List.length_take]; omega

theorem worstDays_len (l : List DayEntry) : (worstDaysOf l).length ≤ 2 := by
  unfold worstDaysOf
  rw [List.length_map]
  calc (((sortedDaysOf l).drop ((sortedDaysOf l).length - 2)).filter _).length
      ≤ ((sortedDaysOf l).drop ((sortedDaysOf l).length - 2)).length :=
        List.length_filter_le _ _
    _ ≤ 2 := by rw [List.length_drop]; omega

/-- Claim C2: for every habit and completion history, the returned
`StreakStats` satisfy `current_streak ≤ max_streak`; the 7-day, 30-day and
whole-window completion rates all lie in `[0, 100]`; `best_days` and
`worst_days` each have at most two entries, every best day having a
`day_stats` rate `≥ 50` and every worst day a rate `< 50`; and every
`day_stats` key is one of the seven calendar weekday names. -/
theorem claim2_invariants (habit : Habit) (days_back today : Nat)
    (fs : Nat → Option (Except Unit ReflectionData)) :
    (calculate_streaks habit days_back today fs).current_streak ≤
      (calculate_streaks habit days_back today fs).max_streak ∧
    (0 ≤ (calculate_streaks habit days_back today fs).completion_rate_7d ∧
      (calculate_streaks habit days_back today fs).completion_rate_7d ≤ 100) ∧
    (0 ≤ (calculate_streaks habit days_back today fs).completion_rate_30d ∧
      (calculate_streaks habit days_back today fs).completion_rate_30d ≤ 100) ∧
    (0 ≤ (calculate_streaks habit days_back today fs).completion_rate_all ∧
      (calculate_streaks habit days_back today fs).completion_rate_all ≤ 100) ∧
    (calculate_streaks habit days_back today fs).best_days.length ≤ 2 ∧
    (calculate_streaks habit days_back today fs).worst_days.length ≤ 2 ∧
    (calculate_streaks habit days_back today fs).best_days.all (fun d =>
      (calculate_streaks habit days_back today fs).day_stats.any
        (fun p => p.1 == d && decide (50 ≤ p.2))) = true ∧
    (calculate_streaks habit days_back today fs).worst_days.all (fun d =>
      (calculate_streaks habit days_back today fs).day_stats.any
        (fun p => p.1 == d && decide (p.2 < 50))) = true ∧
    (calculate_streaks habit days_back today fs).day_stats.all
      (fun p => weekdayNames.contains p.1) = true := by
  refine ⟨?_, ⟨?_, ?_⟩, ⟨?_, ?_⟩, ⟨?_, ?_⟩, ?_, ?_, ?_, ?_, ?_⟩
  · exact current_le_max _
  · exact pyRound1_nonneg _ (rateOf_nonneg _)
  · exact pyRound1_le_100 _ (rateOf_le_100 _)
  · exact pyRound1_nonneg _ (rateOf_nonneg _)
  · exact pyRound1_le_100 _ (rateOf_le_100 _)
  · exact pyRound1_nonneg _ (rateOf_nonneg _)
  · exact pyRound1_le_100 _ (rateOf_le_100 _)
  · exact bestDays_len _
  · exact worstDays_len _
  · exact List.all_eq_true.mpr (fun d hd => bestDays_sound _ d hd)
  · exact List.all_eq_true.mpr (fun d hd => worstDays_sound _ d hd)
  · apply List.all_eq_true.mpr
    intro p hp
    have := dayStats_key_weekday habit days_back today fs p hp
    simpa using this

/-! ### Helper lemmas for the checklist-extraction claims -/

theorem findOpsBlock_none (lines : List (List Char))
    (h : ∀ l ∈ lines, isOpsHeaderLine l = false) : findOpsBlock lines = none := by
  induction lines with
  | nil => rfl
  | cons l rest ih =>
    unfold findOpsBlock
    rw [h l (List.mem_cons_self l rest)]
    simp only [Bool.false_eq_true, if_false]
    exact ih (fun x hx => h x (List.mem_cons_of_mem l hx))

theorem splitLines_single (a : List Char) (ha : '\n' ∉ a) : splitLines a = [a] := by
  induction a with
  | nil => rfl
  | cons c t ih =>
    unfold splitLines
    have hc : c ≠ '\n' := fun h => ha (h ▸ List.mem_cons_self c t)
    rw [if_neg hc, ih (fun h => ha (List.mem_cons_of_mem c h))]

theorem splitLines_append_left (a : List Char) (ha : '\n' ∉ a) (r : List Char)
    (h tl : _) (hr : splitLines r = h :: tl) :
    splitLines (a ++ r) = (a ++ h) :: tl := by
  induction a with
  | nil => simpa using hr
  | cons c t ih =>
    have hc : c ≠ '\n' := fun hh => ha (hh ▸ List.mem_cons_self c t)
    have := ih (fun hh => ha (List.mem_cons_of_mem c hh))
    simp only [List.cons_append]
    unfold splitLines
    rw [if_neg hc, this]

theorem splitLines_build (xs : List (List Char)) :
    ∀ a : List Char, '\n' ∉ a → (∀ x ∈ xs, '\n' ∉ x) →
      splitLines (a ++ (xs.map (fun x => '\n' :: x)).flatten) = a :: xs := by
  induction xs with
  | nil =>
    intro a ha _
    simpa using splitLines_single a ha
  | cons x xs ih =>
    intro a ha hxs
    have hx : '\n' ∉ x := hxs x (List.mem_cons_self x xs)
    have h1 : splitLines (x ++ (xs.map (fun x => '\n' :: x)).flatten) = x :: xs :=
      ih x hx (fun y hy => hxs y (List.mem_cons_of_mem x hy))
    have h2 : splitLines ('\n' :: (x ++ (xs.map (fun x => '\n' :: x)).flatten)) =
        [] :: x :: xs := by
      unfold splitLines
      rw [if_pos rfl, h1]
    have h3 := splitLines_append_left a ha _ _ _ h2
    simpa using h3


theorem dropWhile_idem (p : Char → Bool) (l : List Char) :
    (l.dropWhile p).dropWhile p = l.dropWhile p := by
  induction l with
  | nil => rfl
  | cons a t ih =>
    cases hp : p a
    · simp [List.dropWhile_cons, hp]
    · simpa [List.dropWhile_cons, hp] using ih

theorem all_ws_of_trim_empty (l : List Char) (h : trimWs l = []) :
    l.all wsChar = true := by
  unfold trimWs at h
  rw [List.reverse_eq_nil_iff] at h
  rw [List.dropWhile_eq_nil_iff] at h
  have h2 : ∀ x ∈ l.dropWhile wsChar, wsChar x = true := by
    intro x hx
    exact h x (by simpa using hx)
  rw [List.all_eq_true]
  intro x hx
  rcases List.mem_append.mp (by rw [List.takeWhile_append_dropWhile (p := wsChar)]; exact hx :
      x ∈ l.takeWhile wsChar ++ l.dropWhile wsChar) with h3 | h3
  · exact List.mem_takeWhile_imp h3
  · exact h2 x h3

theorem trim_nonempty (l : List Char) (h : l.all wsChar = false) :
    (trimWs l).isEmpty = false := by
  cases ht : trimWs l with
  | nil => rw [all_ws_of_trim_empty l ht] at h; cases h
  | cons c r => rfl

theorem trimWsRight_append (a t : List Char) (ht : t.all wsChar = false) :
    trimWsRight (a ++ t) = a ++ trimWsRight t := by
  unfold trimWsRight
  rw [List.reverse_append, List.dropWhile_append]
  have hne : (t.reverse.dropWhile wsChar).isEmpty = false := by
    cases hh : t.reverse.dropWhile wsChar with
    | cons c r => rfl
    | nil =>
      rw [List.dropWhile_eq_nil_iff] at hh
      have : t.all wsChar = true := by
        rw [List.all_eq_true]
        intro x hx
        exact hh x (by simpa using hx)
      rw [this] at ht; cases ht
  rw [hne]
  simp

theorem trimWs_cons_not_ws (c : Char) (t : List Char) (hc : wsChar c = false) :
    trimWs (c :: t) = trimWsRight (c :: t) := by
  unfold trimWs trimWsRight
  rw [List.dropWhile_cons, hc]
  simp

theorem occursIn_eq_false {c : Char} {p l : List Char} (hp : p.head? = some c)
    (hl : c ∉ l) : occursIn p l = false := by
  induction l with
  | nil =>
    unfold occursIn
    cases p with
    | nil => cases hp
    | cons a q => rfl
  | cons a t ih =>
    unfold occursIn
    have h1 : p.isPrefixOf (a :: t) = false := by
      cases p with
      | nil => cases hp
      | cons b q =>
        have hb : b = c := by simpa using hp
        subst hb
        have hac : (b == a) = false :=
          beq_eq_false_iff_ne.mpr (fun h => hl (by rw [h]; exact List.mem_cons_self a t))
        simp [List.isPrefixOf, hac]
    rw [h1]
    simp only [Bool.false_or]
    exact ih (fun h => hl (List.mem_cons_of_mem a h))


theorem stripCheckboxAux_id (l : List Char) :
    ∀ n, l.length < n → '[' ∉ l → stripCheckboxAux n l = l := by
  induction l with
  | nil =>
    intro n hn _
    cases n with
    | zero => cases hn
    | succ m => rfl
  | cons c rest ih =>
    intro n hn hbr
    cases n with
    | zero => cases hn
    | succ m =>
      unfold stripCheckboxAux
      have h1 : "- [x]".toList.isPrefixOf (c :: rest) = false := by
        cases hp : "- [x]".toList.isPrefixOf (c :: rest)
        · rfl
        · exfalso
          have hsub := (List.isPrefixOf_iff_prefix.mp hp).subset
          exact hbr (hsub (by decide))
      have h2 : "- [X]".toList.isPrefixOf (c :: rest) = false := by
        cases hp : "- [X]".toList.isPrefixOf (c :: rest)
        · rfl
        · exfalso
          have hsub := (List.isPrefixOf_iff_prefix.mp hp).subset
          exact hbr (hsub (by decide))
      rw [h1, h2]
      simp only [Bool.or_self, Bool.false_eq_true, if_false]
      rw [ih m (by simpa using hn) (fun h => hbr (List.mem_cons_of_mem c h))]

theorem stripCheckbox_checked (t : List Char) (hbr : '[' ∉ t) :
    stripCheckbox ("- [x] ".toList ++ t) = t.dropWhile wsChar := by
  unfold stripCheckbox
  have hlist : "- [x] ".toList ++ t = '-' :: ' ' :: '[' :: 'x' :: ']' :: ' ' :: t := rfl
  rw [hlist]
  unfold stripCheckboxAux
  have hpre : "- [x]".toList.isPrefixOf ('-' :: ' ' :: '[' :: 'x' :: ']' :: ' ' :: t) = true := by
    simp [List.isPrefixOf]
  rw [hpre]
  simp only [Bool.true_or, if_true]
  have hdrop : (('-' :: ' ' :: '[' :: 'x' :: ']' :: ' ' :: t).drop 5).dropWhile wsChar =
      t.dropWhile wsChar := by
    show (' ' :: t).dropWhile wsChar = t.dropWhile wsChar
    rw [List.dropWhile_cons]
    norm_num [wsChar]
  rw [hdrop]
  apply stripCheckboxAux_id
  · have h1 := (List.dropWhile_suffix (l := t) wsChar).length_le
    simp only [List.length_cons]
    omega
  · intro h
    exact hbr ((List.dropWhile_suffix wsChar).subset h)

theorem trimWs_dropWhile (t : List Char) :
    trimWs (t.dropWhile wsChar) = trimWs t := by
  unfold trimWs
  rw [show (t.dropWhile wsChar).dropWhile wsChar = t.dropWhile wsChar from by
    induction t with
    | nil => rfl
    | cons a r ih =>
      cases hp : wsChar a
      · simp [List.dropWhile_cons, hp]
      · simpa [List.dropWhile_cons, hp] using ih]

theorem occursIn_x_checked (t : List Char) :
    occursIn "[x]".toList ("- [x] ".toList ++ t) = true := by
  show occursIn "[x]".toList ('-' :: ' ' :: '[' :: 'x' :: ']' :: ' ' :: t) = true
  simp [occursIn, List.isPrefixOf]

theorem occursIn_unchecked_x (t : List Char) (hbr : '[' ∉ t) :
    occursIn "[x]".toList ("- [ ] ".toList ++ t) = false := by
  show occursIn "[x]".toList ('-' :: ' ' :: '[' :: ' ' :: ']' :: ' ' :: t) = false
  have hrest : occursIn ['[', 'x', ']'] t = false :=
    occursIn_eq_false (by rfl) hbr
  simp [occursIn, List.isPrefixOf, hrest]

theorem occursIn_unchecked_X (t : List Char) (hbr : '[' ∉ t) :
    occursIn "[X]".toList ("- [ ] ".toList ++ t) = false := by
  show occursIn "[X]".toList ('-' :: ' ' :: '[' :: ' ' :: ']' :: ' ' :: t) = false
  have hrest : occursIn ['[', 'X', ']'] t = false :=
    occursIn_eq_false (by rfl) hbr
  simp [occursIn, List.isPrefixOf, hrest]

theorem trimWs_itemLine (b : Bool) (t : String)
    (hws : t.toList.all wsChar = false) :
    trimWs (itemLine b t) =
      (if b then "- [x] " else "- [ ] ").toList ++ trimWsRight t.toList := by
  unfold itemLine
  cases b
  · show trimWs ('-' :: (" [ ] ".toList ++ t.toList)) = _
    rw [trimWs_cons_not_ws _ _ (by rfl)]
    show trimWsRight ("- [ ] ".toList ++ t.toList) = _
    rw [trimWsRight_append _ _ hws]
    rfl
  · show trimWs ('-' :: (" [x] ".toList ++ t.toList)) = _
    rw [trimWs_cons_not_ws _ _ (by rfl)]
    show trimWsRight ("- [x] ".toList ++ t.toList) = _
    rw [trimWsRight_append _ _ hws]
    rfl

theorem processOpsLine_item (acc : List String) (b : Bool) (t : String)
    (hws : t.toList.all wsChar = false) (hbr : '[' ∉ t.toList) :
    processOpsLine acc (itemLine b t) =
      if b then acc ++ [String.mk (trimWs t.toList)] else acc := by
  unfold processOpsLine
  rw [trimWs_itemLine b t hws]
  cases b
  · -- unchecked line
    have hpre : "- [ ]".toList.isPrefixOf
        ("- [ ] ".toList ++ trimWsRight t.toList) = true := by
      simp [List.isPrefixOf]
    simp only [if_false, Bool.false_eq_true, hpre, Bool.not_true, Bool.and_false,
      Bool.false_and, Bool.and_self]
    rw [show (itemLine false t) = "- [ ] ".toList ++ t.toList from rfl]
    rw [occursIn_unchecked_x t.toList hbr, occursIn_unchecked_X t.toList hbr]
    simp
  · -- checked line
    have hpre : "- [x]".toList.isPrefixOf
        ("- [x] ".toList ++ trimWsRight t.toList) = true := by
      simp [List.isPrefixOf]
    simp only [if_true, hpre, Bool.not_true, Bool.and_false, Bool.false_and]
    rw [show (itemLine true t) = "- [x] ".toList ++ t.toList from rfl]
    rw [occursIn_x_checked t.toList]
    simp only [Bool.true_or, if_true]
    rw [stripCheckbox_checked t.toList hbr, trimWs_dropWhile]
    rw [show (trimWs t.toList).isEmpty = false from trim_nonempty _ hws]
    simp

theorem isWsLine_itemLine (b : Bool) (t : String) :
    isWsLine (itemLine b t) = false := by
  unfold isWsLine itemLine
  cases b <;> rfl

theorem isChecklistLine_itemLine (b : Bool) (t : String)
    (hne : t.toList ≠ []) : isChecklistLine (itemLine b t) = true := by
  unfold isChecklistLine itemLine
  cases b
  · have h3 : 0 < t.toList.length := List.length_pos.mpr hne
    simp [List.isPrefixOf]
    simpa using h3
  · have h3 : 0 < t.toList.length := List.length_pos.mpr hne
    simp [List.isPrefixOf]
    simpa using h3

theorem findOpsBlock_build (items : List (Bool × String))
    (h : ∀ p ∈ items, p.2.toList.all wsChar = false) :
    findOpsBlock ("#### Операции:".toList :: items.map (fun p => itemLine p.1 p.2)) =
      match items with
      | [] => none
      | _ :: _ => some (items.map (fun p => itemLine p.1 p.2)) := by
  unfold findOpsBlock
  rw [show isOpsHeaderLine "#### Операции:".toList = true from by decide]
  simp only [if_true]
  cases items with
  | nil => rfl
  | cons p ps =>
    have hws : ∀ q ∈ p :: ps, isWsLine (itemLine q.1 q.2) = false := by
      intro q _; exact isWsLine_itemLine q.1 q.2
    have hnonempty : ∀ q ∈ p :: ps, q.2.toList ≠ [] := by
      intro q hq hnil
      have := h q hq
      rw [hnil] at this
      cases this
    have hchk : ∀ q ∈ p :: ps, isChecklistLine (itemLine q.1 q.2) = true := by
      intro q hq; exact isChecklistLine_itemLine q.1 q.2 (hnonempty q hq)
    rw [List.map_cons]
    rw [List.dropWhile_cons]
    rw [isWsLine_itemLine p.1 p.2]
    simp only [Bool.false_eq_true, if_false]
    rw [isChecklistLine_itemLine p.1 p.2 (hnonempty p (List.mem_cons_self p ps))]
    simp only [if_true]
    congr 1
    congr 1
    rw [List.takeWhile_eq_self_iff]
    intro x hx
    obtain ⟨q, hq, hqx⟩ := List.mem_map.mp hx
    rw [← hqx]
    exact hchk q (List.mem_cons_of_mem p hq)

theorem foldl_processOps (items : List (Bool × String)) :
    ∀ acc : List String,
      (∀ p ∈ items, p.2.toList.all wsChar = false ∧ '[' ∉ p.2.toList) →
      (items.map (fun p => itemLine p.1 p.2)).foldl processOpsLine acc =
        acc ++ (items.filter (fun p => p.1)).map
          (fun p => String.mk (trimWs p.2.toList)) := by
  induction items with
  | nil => intro acc _; simp
  | cons p ps ih =>
    intro acc h
    have hp := h p (List.mem_cons_self p ps)
    rw [List.map_cons, List.foldl_cons,
      processOpsLine_item acc p.1 p.2 hp.1 hp.2,
      ih _ (fun q hq => h q (List.mem_cons_of_mem p hq))]
    cases hb : p.1
    · simp [List.filter_cons, hb]
    · simp [List.filter_cons, hb]

theorem parse_ops_build (items : List (Bool × String))
    (h : ∀ p ∈ items, p.2.toList.all wsChar = false ∧ '[' ∉ p.2.toList ∧
        '\n' ∉ p.2.toList) :
    parse_operations_done (opsDoc items) =
      (items.filter (fun p => p.1)).map (fun p => String.mk (trimWs p.2.toList)) := by
  unfold parse_operations_done opsDoc
  have hsplit : splitLines (String.mk ("#### Операции:".toList ++
      (items.map (fun p => '\n' :: itemLine p.1 p.2)).flatten)).toList =
      "#### Операции:".toList :: items.map (fun p => itemLine p.1 p.2) := by
    show splitLines ("#### Операции:".toList ++
      (items.map (fun p => '\n' :: itemLine p.1 p.2)).flatten) = _
    have := splitLines_build (items.map (fun p => itemLine p.1 p.2))
      "#### Операции:".toList (by decide)
      (by
        intro x hx
        obtain ⟨q, hq, hqx⟩ := List.mem_map.mp hx
        rw [← hqx]
        intro hmem
        unfold itemLine at hmem
        rcases List.mem_append.mp hmem with h1 | h1
        · cases hb : q.1
          · rw [hb] at h1
            simp only [Bool.false_eq_true, if_false] at h1
            exact absurd h1 (by decide)
          · rw [hb] at h1
            simp only [if_true] at h1
            exact absurd h1 (by decide)
        · exact (h q hq).2.2 h1)
    rw [← this]
    congr 1
    rw [List.map_map]
    rfl
  rw [hsplit]
  rw [findOpsBlock_build items (fun p hp => (h p hp).1)]
  cases items with
  | nil => rfl
  | cons p ps =>
    exact foldl_processOps (p :: ps) []
      (fun q hq => ⟨(h q hq).1, (h q hq).2.1⟩)

/-- Counterexample to claim C4: the checklist-block pattern
`(?:- \[[ x]\] .+\n?)+` admits only a space or a lowercase `x` inside the
brackets, so a document whose only item under the header is `- [X] ...`
(N = 1 checked item by the claim's case-insensitive reading) produces an
empty `operations_done`, not one entry. -/
theorem claim4_counterexample :
    parse_operations_done "#### Операции:\n- [X] Сделал зарядку" = [] ∧
    (parse_operations_done "#### Операции:\n- [X] Сделал зарядку").length ≠ 1 := by
  decide

/-- Claim C4 as amended: if the `#### Операции:` header is absent (no line
carries it) the extracted `operations_done` is empty and extraction does not
raise; and if the header is present followed by checked items whose mark is
the lowercase `[x]` accepted by the block pattern (an uppercase `[X]` line is
not matched by the block and terminates it) and by unchecked `[ ]` items,
then `operations_done` contains exactly the checked items' texts with the
checkbox syntax stripped — in particular exactly N entries for N checked
items. -/
theorem claim4_amended (content : String) (items : List (Bool × String))
    (habs : ∀ l ∈ splitLines content.toList, isOpsHeaderLine l = false)
    (hitems : ∀ p ∈ items, p.2.toList.all wsChar = false ∧ '[' ∉ p.2.toList ∧
        '\n' ∉ p.2.toList) :
    parse_operations_done content = [] ∧
    parse_operations_done (opsDoc items) =
      (items.filter (fun p => p.1)).map (fun p => String.mk (trimWs p.2.toList)) ∧
    (parse_operations_done (opsDoc items)).length =
      (items.filter (fun p => p.1)).length := by
  refine ⟨?_, parse_ops_build items hitems, ?_⟩
  · unfold parse_operations_done
    rw [findOpsBlock_none _ habs]
  · rw [parse_ops_build items hitems, List.length_map]

/-- Witness for claim C4 at a concrete header-free document and a concrete
three-item checklist (two checked, one unchecked). -/
theorem claim4_witness :
    parse_operations_done "Утро\nВечер" = [] ∧
    parse_operations_done (opsDoc
        [(true, "Сделал зарядку"), (false, "Прочитал книгу"), (true, "Выпил воду")]) =
      ([(true, "Сделал зарядку"), (false, "Прочитал книгу"),
          (true, "Выпил воду")].filter (fun p => p.1)).map
        (fun p => String.mk (trimWs p.2.toList)) ∧
    (parse_operations_done (opsDoc
        [(true, "Сделал зарядку"), (false, "Прочитал книгу"),
          (true, "Выпил воду")])).length =
      ([(true, "Сделал зарядку"), (false, "Прочитал книгу"),
          (true, "Выпил воду")].filter (fun p => p.1)).length :=
  claim4_amended "Утро\nВечер"
    [(true, "Сделал зарядку"), (false, "Прочитал книгу"), (true, "Выпил воду")]
    (by decide) (by decide)

/-! ### Helper lemmas for the habit-extraction claims -/

theorem takeWhile_all_append (p : Char → Bool) (a : List Char) (b : Char)
    (r : List Char) (ha : ∀ x ∈ a, p x = true) (hb : p b = false) :
    (a ++ b :: r).takeWhile p = a := by
  induction a with
  | nil => simp [List.takeWhile_cons, hb]
  | cons c t ih =>
    rw [List.cons_append, List.takeWhile_cons, ha c (List.mem_cons_self c t)]
    rw [ih (fun x hx => ha x (List.mem_cons_of_mem c hx))]
    simp

theorem isPrefixOf_append_self (p r : List Char) : p.isPrefixOf (p ++ r) = true := by
  rw [List.isPrefixOf_iff_prefix]
  exact List.prefix_append p r

theorem isPrefixOf_append_of_le (p u v : List Char) (h : p.length ≤ u.length) :
    p.isPrefixOf (u ++ v) = p.isPrefixOf u := by
  cases h1 : p.isPrefixOf u
  · cases h2 : p.isPrefixOf (u ++ v)
    · rfl
    · exfalso
      have h3 := List.isPrefixOf_iff_prefix.mp h2
      have h4 : p = (u ++ v).take p.length := List.prefix_iff_eq_take.mp h3
      rw [List.take_append_of_le_length h] at h4
      have h5 : p <+: u := by
        rw [List.prefix_iff_eq_take]
        exact h4
      rw [List.isPrefixOf_iff_prefix.mpr h5] at h1
      cases h1
  · have h3 := List.isPrefixOf_iff_prefix.mp h1
    rw [List.isPrefixOf_iff_prefix]
    exact h3.trans (List.prefix_append u v)

theorem matchActionPart_eval (a : List Char) (ha : a ≠ []) (hna : '\n' ∉ a)
    (rest : List Char) :
    matchActionPart (a ++ '\n' :: rest) = some (a, rest) := by
  unfold matchActionPart
  have ht : (a ++ '\n' :: rest).takeWhile (fun c => decide (c ≠ '\n')) = a := by
    apply takeWhile_all_append
    · intro x hx
      simp only [decide_eq_true_eq]
      intro h
      exact hna (h ▸ hx)
    · simp
  rw [ht]
  rw [show a.isEmpty = false from by cases a; exact absurd rfl ha; rfl]
  simp only [Bool.false_eq_true, if_false]
  congr 1
  congr 1
  rw [List.drop_append_of_le_length (le_refl a.length)]
  simp

theorem matchPairAux_build (sep : List Char) (hsep : sep ≠ [])
    (a : List Char) (ha : a ≠ []) (hna : '\n' ∉ a) (rest : List Char) :
    ∀ (t : List Char) (acc : List Char) (fuel : Nat),
      (t ++ sep ++ a).length < fuel →
      (acc = [] → t ≠ []) →
      '\n' ∉ t →
      (∀ i < t.length, sep.isPrefixOf ((t ++ sep).drop i) = false) →
      matchPairAux sep fuel acc (t ++ sep ++ a ++ '\n' :: rest) =
        some (acc.reverse ++ t, a, rest) := by
  intro t
  induction t with
  | nil =>
    intro acc fuel hfuel hne _ _
    cases fuel with
    | zero => cases hfuel
    | succ f =>
      have hacc : acc ≠ [] := fun h => (hne h) rfl
      obtain ⟨s0, stl, rfl⟩ : ∃ s0 stl, sep = s0 :: stl := by
        cases sep with
        | nil => exact absurd rfl hsep
        | cons s0 stl => exact ⟨s0, stl, rfl⟩
      show matchPairAux (s0 :: stl) (f + 1) acc
          (s0 :: (stl ++ a ++ '\n' :: rest)) = _
      unfold matchPairAux
      have hpre : (s0 :: stl).isPrefixOf (s0 :: (stl ++ a ++ '\n' :: rest)) = true := by
        have := isPrefixOf_append_self (s0 :: stl) (a ++ '\n' :: rest)
        simpa using this
      rw [hpre]
      rw [show acc.isEmpty = false from by cases acc; exact absurd rfl hacc; rfl]
      simp only [Bool.not_false, Bool.and_true, if_true]
      have hdrop : (s0 :: (stl ++ a ++ '\n' :: rest)).drop (s0 :: stl).length =
          a ++ '\n' :: rest := by
        have := List.drop_left (s0 :: stl) (a ++ '\n' :: rest)
        simpa using this
      rw [hdrop, matchActionPart_eval a ha hna rest]
      simp
  | cons c t ih =>
    intro acc fuel hfuel _ hnt hfirst
    cases fuel with
    | zero => cases hfuel
    | succ f =>
      show matchPairAux sep (f + 1) acc
          (c :: (t ++ sep ++ a ++ '\n' :: rest)) = _
      unfold matchPairAux
      have hpre : sep.isPrefixOf (c :: (t ++ sep ++ a ++ '\n' :: rest)) = false := by
        have heq : c :: (t ++ sep ++ a ++ '\n' :: rest) =
            ((c :: t) ++ sep) ++ (a ++ '\n' :: rest) := by simp
        rw [heq, isPrefixOf_append_of_le sep ((c :: t) ++ sep) _
          (by rw [List.length_append]; omega)]
        have := hfirst 0 (by simp)
        simpa using this
      rw [hpre]
      simp only [Bool.false_and, Bool.false_eq_true, if_false]
      have hc : ¬(c = '\n') := fun h => hnt (h ▸ List.mem_cons_self c t)
      rw [if_neg hc]
      rw [ih (c :: acc) f
        (by simp only [List.length_append, List.length_cons] at hfuel ⊢; omega)
        (fun h => absurd h (List.cons_ne_nil c acc))
        (fun h => hnt (List.mem_cons_of_mem c h))
        (fun i hi => by
          have := hfirst (i + 1) (by simpa using Nat.succ_lt_succ hi)
          simpa using this)]
      simp


theorem matchPairAux_rem_le (sep : List Char) :
    ∀ (fuel : Nat) (acc cs t a rem : List Char),
      matchPairAux sep fuel acc cs = some (t, a, rem) → rem.length ≤ cs.length := by
  intro fuel
  induction fuel with
  | zero => intro acc cs t a rem h; cases h
  | succ f ih =>
    intro acc cs t a rem h
    cases cs with
    | nil => cases h
    | cons c rest =>
      unfold matchPairAux at h
      by_cases h1 : (sep.isPrefixOf (c :: rest) && !acc.isEmpty) = true
      · rw [if_pos h1] at h
        cases h2 : matchActionPart ((c :: rest).drop sep.length) with
        | some pr =>
          rw [h2] at h
          obtain ⟨a0, rem0⟩ := pr
          simp only [Option.some.injEq, Prod.mk.injEq] at h
          rw [← h.2.2]
          unfold matchActionPart at h2
          by_cases h3 : (((c :: rest).drop sep.length).takeWhile
              (fun c => decide ¬c = '\n')).isEmpty = true
          · rw [if_pos h3] at h2; cases h2
          · rw [if_neg h3] at h2
            simp only [Option.some.injEq, Prod.mk.injEq] at h2
            rw [← h2.2]
            simp only [List.length_drop, List.length_cons]
            omega
        | none =>
          rw [h2] at h
          by_cases h4 : c = '\n'
          · rw [if_pos h4] at h; cases h
          · rw [if_neg h4] at h
            have := ih (c :: acc) rest t a rem h
            simp only [List.length_cons]
            omega
      · rw [if_neg h1] at h
        by_cases h4 : c = '\n'
        · rw [if_pos h4] at h; cases h
        · rw [if_neg h4] at h
          have := ih (c :: acc) rest t a rem h
          simp only [List.length_cons]
          omega

theorem scanPairsAux_fuel_irrel (pre sep : List Char) (hpre : pre ≠ []) :
    ∀ (n : Nat) (m : Nat) (l : List Char), l.length < n → l.length < m →
      scanPairsAux pre sep n l = scanPairsAux pre sep m l := by
  have hp1 : 0 < pre.length := List.length_pos.mpr hpre
  intro n
  induction n with
  | zero => intro m l h _; cases h
  | succ n ih =>
    intro m l hn hm
    cases m with
    | zero => cases hm
    | succ m =>
      cases l with
      | nil => rfl
      | cons c rest =>
        unfold scanPairsAux
        by_cases h1 : pre.isPrefixOf (c :: rest) = true
        · rw [if_pos h1, if_pos h1]
          cases h2 : matchPairAux sep ((c :: rest).length + 1) []
              ((c :: rest).drop pre.length) with
          | none =>
            exact ih m rest (by simp at hn; omega) (by simp at hm; omega)
          | some pr =>
            obtain ⟨t, a, rem⟩ := pr
            have hrem : rem.length ≤ ((c :: rest).drop pre.length).length :=
              matchPairAux_rem_le sep _ _ _ _ _ _ h2
            rw [List.length_drop, List.length_cons] at hrem
            have hn2 : rest.length + 1 < n + 1 := by simpa using hn
            have hm2 : rest.length + 1 < m + 1 := by simpa using hm
            show (t, a) :: scanPairsAux pre sep n rem =
              (t, a) :: scanPairsAux pre sep m rem
            rw [ih m rem (by omega) (by omega)]
        · rw [if_neg h1, if_neg h1]
          exact ih m rest (by simp at hn; omega) (by simp at hm; omega)

theorem scanPairsAux_cons (pre sep : List Char) (f : Nat) (c : Char)
    (rest : List Char) :
    scanPairsAux pre sep (f + 1) (c :: rest) =
      if pre.isPrefixOf (c :: rest) then
        match matchPairAux sep ((c :: rest).length + 1) []
            ((c :: rest).drop pre.length) with
        | some (t, a, rem) => (t, a) :: scanPairsAux pre sep f rem
        | none => scanPairsAux pre sep f rest
      else scanPairsAux pre sep f rest := rfl

theorem scanPairsAux_skip_line (pre sep : List Char) (hpre : pre ≠ [])
    (hnl : '\n' ∉ pre) :
    ∀ (line : List Char) (fuel : Nat) (rest : List Char),
      occursIn pre line = false →
      scanPairsAux pre sep (fuel + (line.length + 1)) (line ++ '\n' :: rest) =
        scanPairsAux pre sep fuel rest := by
  intro line
  induction line with
  | nil =>
    intro fuel rest _
    show scanPairsAux pre sep (fuel + 1) ('\n' :: rest) = _
    rw [scanPairsAux_cons]
    have h1 : pre.isPrefixOf ('\n' :: rest) = false := by
      cases hp : pre.isPrefixOf ('\n' :: rest)
      · rfl
      · exfalso
        obtain ⟨p0, ptl, rfl⟩ : ∃ p0 ptl, pre = p0 :: ptl := by
          cases pre with
          | nil => exact absurd rfl hpre
          | cons p0 ptl => exact ⟨p0, ptl, rfl⟩
        have := List.isPrefixOf_iff_prefix.mp hp
        have hh : p0 = '\n' := by
          have := List.prefix_iff_eq_take.mp this
          simp only [List.length_cons, List.take_succ_cons] at this
          exact (List.cons_eq_cons.mp this).1
        exact hnl (hh ▸ List.mem_cons_self p0 ptl)
    rw [h1]
    simp
  | cons c t ih =>
    intro fuel rest hocc
    show scanPairsAux pre sep (fuel + (t.length + 1) + 1)
        (c :: (t ++ '\n' :: rest)) = _
    rw [scanPairsAux_cons]
    have h1 : pre.isPrefixOf (c :: (t ++ '\n' :: rest)) = false := by
      cases hp : pre.isPrefixOf (c :: (t ++ '\n' :: rest))
      · rfl
      · exfalso
        by_cases hlen : pre.length ≤ (c :: t).length
        · have heq : c :: (t ++ '\n' :: rest) = (c :: t) ++ '\n' :: rest := by simp
          rw [heq, isPrefixOf_append_of_le pre (c :: t) _ hlen] at hp
          unfold occursIn at hocc
          rw [hp] at hocc
          simp at hocc
        · push_neg at hlen
          have hp2 := List.isPrefixOf_iff_prefix.mp hp
          have hp3 : pre <+: ((c :: t) ++ ['\n']) ++ rest := by
            have heq : c :: (t ++ '\n' :: rest) = ((c :: t) ++ ['\n']) ++ rest := by
              simp
            rw [← heq]
            exact hp2
          have hp4 : (c :: t) ++ ['\n'] <+: ((c :: t) ++ ['\n']) ++ rest :=
            List.prefix_append _ _
          have hmem : '\n' ∈ pre := by
            rcases List.prefix_or_prefix_of_prefix hp3 hp4 with h | h
            · have hle := h.length_le
              rw [List.length_append, List.length_singleton] at hle
              have heqlen : pre.length = (c :: t ++ ['\n']).length := by
                rw [List.length_append, List.length_singleton]
                simp only [List.length_cons] at *
                omega
              have := List.IsPrefix.eq_of_length h heqlen
              rw [this]
              simp
            · exact h.subset (by simp)
          exact hnl hmem
    rw [h1]
    simp only [Bool.false_eq_true, if_false]
    have hocc2 : occursIn pre t = false := by
      unfold occursIn at hocc
      cases h2 : occursIn pre t
      · rfl
      · rw [h2] at hocc; simp at hocc
    exact ih fuel rest hocc2

theorem scanPairsAux_match_line (pre sep : List Char) (hpre : pre ≠ [])
    (hsep : sep ≠ []) (t a : List Char) (ht : t ≠ []) (hnt : '\n' ∉ t)
    (ha : a ≠ []) (hna : '\n' ∉ a)
    (hfirst : ∀ i < t.length, sep.isPrefixOf ((t ++ sep).drop i) = false)
    (fuel : Nat) (rest : List Char)
    (hfuel : (pre ++ (t ++ sep ++ a ++ '\n' :: rest)).length ≤ fuel) :
    scanPairsAux pre sep (fuel + 1) (pre ++ (t ++ sep ++ a ++ '\n' :: rest)) =
      (t, a) :: scanPairsAux pre sep (rest.length + 1) rest := by
  obtain ⟨p0, ptl, rfl⟩ : ∃ p0 ptl, pre = p0 :: ptl := by
    cases pre with
    | nil => exact absurd rfl hpre
    | cons p0 ptl => exact ⟨p0, ptl, rfl⟩
  show scanPairsAux (p0 :: ptl) sep (fuel + 1)
      (p0 :: (ptl ++ (t ++ sep ++ a ++ '\n' :: rest))) = _
  rw [scanPairsAux_cons]
  have hpref : (p0 :: ptl).isPrefixOf
      (p0 :: (ptl ++ (t ++ sep ++ a ++ '\n' :: rest))) = true := by
    have := isPrefixOf_append_self (p0 :: ptl) (t ++ sep ++ a ++ '\n' :: rest)
    simpa using this
  rw [hpref]
  simp only [if_true]
  have hdrop : (p0 :: (ptl ++ (t ++ sep ++ a ++ '\n' :: rest))).drop
      (p0 :: ptl).length = t ++ sep ++ a ++ '\n' :: rest := by
    have := List.drop_left (p0 :: ptl) (t ++ sep ++ a ++ '\n' :: rest)
    simpa using this
  rw [hdrop]
  have hmatch := matchPairAux_build sep hsep a ha hna rest t []
    ((p0 :: (ptl ++ (t ++ sep ++ a ++ '\n' :: rest))).length + 1)
    (by simp [List.length_append]; omega)
    (fun _ => ht) hnt hfirst
  simp only [List.reverse_nil, List.nil_append] at hmatch
  rw [show matchPairAux sep ((p0 :: (ptl ++ (t ++ sep ++ a ++ '\n' :: rest))).length + 1)
      [] (t ++ sep ++ a ++ '\n' :: rest) = some (t, a, rest) from hmatch]
  show (t, a) :: scanPairsAux (p0 :: ptl) sep fuel rest = _
  congr 1
  apply scanPairsAux_fuel_irrel (p0 :: ptl) sep hpre
  · simp only [List.length_append, List.length_cons] at hfuel ⊢
    omega
  · omega

theorem scanPairs_lines (pre sep : List Char) (hpre : pre ≠ [])
    (hnlpre : '\n' ∉ pre) (hsep : sep ≠ []) :
    ∀ lines : List (Option (List Char × List Char) × List Char),
      (∀ p ∈ lines, match p.1 with
        | some (t, a) => p.2 = pre ++ (t ++ sep ++ a) ∧ t ≠ [] ∧ a ≠ [] ∧
            '\n' ∉ t ∧ '\n' ∉ a ∧
            (∀ i < t.length, sep.isPrefixOf ((t ++ sep).drop i) = false)
        | none => occursIn pre p.2 = false) →
      scanPairs pre sep ((lines.map (fun p => p.2 ++ ['\n'])).flatten) =
        lines.filterMap (fun p => p.1) := by
  intro lines
  induction lines with
  | nil => intro _; rfl
  | cons q ls ih =>
    intro h
    have hl := h q (List.mem_cons_self q ls)
    have hrest := ih (fun x hx => h x (List.mem_cons_of_mem q hx))
    have hflat : ((q :: ls).map (fun p => p.2 ++ ['\n'])).flatten =
        q.2 ++ '\n' :: ((ls.map (fun p => p.2 ++ ['\n'])).flatten) := by
      simp
    rw [hflat, List.filterMap_cons]
    cases hspec : q.1 with
    | none =>
      rw [hspec] at hl
      unfold scanPairs
      have hlen : (q.2 ++ '\n' :: ((ls.map (fun p => p.2 ++ ['\n'])).flatten)).length + 1 =
          (((ls.map (fun p => p.2 ++ ['\n'])).flatten).length + 1) + (q.2.length + 1) := by
        simp [List.length_append]
        omega
      rw [hlen, scanPairsAux_skip_line pre sep hpre hnlpre q.2 _ _ hl]
      exact hrest
    | some pr =>
      obtain ⟨t, a⟩ := pr
      rw [hspec] at hl
      obtain ⟨hleq, ht, ha, hnt, hna, hfirst⟩ := hl
      unfold scanPairs
      have hleq2 : q.2 ++ '\n' :: ((ls.map (fun p => p.2 ++ ['\n'])).flatten) =
          pre ++ (t ++ sep ++ a ++ '\n' :: ((ls.map (fun p => p.2 ++ ['\n'])).flatten)) := by
        rw [hleq]
        simp
      rw [hleq2]
      rw [scanPairsAux_match_line pre sep hpre hsep t a ht hnt ha hna hfirst _ _
        (le_refl _)]
      unfold scanPairs at hrest
      rw [hrest]

theorem not_mem_of_contains_false {c : Char} {l : List Char}
    (h : l.contains c = false) : c ∉ l := by
  intro hc
  have h2 : l.contains c = true := List.elem_eq_true_of_mem hc
  rw [h] at h2
  cases h2

theorem ne_nil_of_isEmpty_false {l : List Char} (h : l.isEmpty = false) : l ≠ [] := by
  cases l
  · cases h
  · exact List.cons_ne_nil _ _


theorem firstSepOnly_spec (sep t : List Char) (h : firstSepOnly sep t = true) :
    ∀ i < t.length, sep.isPrefixOf ((t ++ sep).drop i) = false := by
  intro i hi
  unfold firstSepOnly at h
  rw [List.all_eq_true] at h
  have := h i (List.mem_range.mpr hi)
  cases hp : sep.isPrefixOf ((t ++ sep).drop i)
  · rfl
  · rw [hp] at this; cases this

def tagII : GoalLine → Option (List Char × List Char)
  | .ii t a => some (t.toList, a.toList)
  | _ => none

def tagTiny : GoalLine → Option (List Char × List Char)
  | .tiny x a => some (x.toList, a.toList)
  | _ => none

theorem claim9_scan_ii (ls : List GoalLine)
    (h : ∀ gl ∈ ls, goodGoalLine gl = true) :
    scanPairs "- ЕСЛИ ".toList " → ТО ".toList (goalDoc ls).toList =
      ls.filterMap tagII := by
  have hdoc : (goalDoc ls).toList =
      ((ls.map (fun gl => (tagII gl, goalLineChars gl))).map
        (fun p => p.2 ++ ['\n'])).flatten := by
    show ((ls.map (fun l => goalLineChars l ++ ['\n']))).flatten = _
    rw [List.map_map]
    rfl
  rw [hdoc]
  rw [scanPairs_lines "- ЕСЛИ ".toList " → ТО ".toList (by decide) (by decide)
    (by decide) _ ?_]
  · rw [List.filterMap_map]
    rfl
  · intro p hp
    obtain ⟨gl, hgl, rfl⟩ := List.mem_map.mp hp
    have hgood := h gl hgl
    cases gl with
    | ii t a =>
      show (goalLineChars (.ii t a)) =
          "- ЕСЛИ ".toList ++ (t.toList ++ " → ТО ".toList ++ a.toList) ∧ _
      unfold goodGoalLine at hgood
      simp only [Bool.and_eq_true, Bool.not_eq_true'] at hgood
      obtain ⟨⟨⟨⟨⟨hne1, hne2⟩, hn1⟩, hn2⟩, hfs⟩, _⟩ := hgood
      refine ⟨by simp [goalLineChars], ne_nil_of_isEmpty_false hne1,
        ne_nil_of_isEmpty_false hne2, not_mem_of_contains_false hn1,
        not_mem_of_contains_false hn2, firstSepOnly_spec _ _ hfs⟩
    | tiny x a =>
      show occursIn "- ЕСЛИ ".toList (goalLineChars (.tiny x a)) = false
      unfold goodGoalLine at hgood
      simp only [Bool.and_eq_true, Bool.not_eq_true'] at hgood
      exact hgood.2
    | other s =>
      show occursIn "- ЕСЛИ ".toList (goalLineChars (.other s)) = false
      unfold goodGoalLine at hgood
      simp only [Bool.and_eq_true, Bool.not_eq_true'] at hgood
      exact hgood.1.2

theorem claim9_scan_tiny (ls : List GoalLine)
    (h : ∀ gl ∈ ls, goodGoalLine gl = true) :
    scanPairs "- После ".toList " → ".toList (goalDoc ls).toList =
      ls.filterMap tagTiny := by
  have hdoc : (goalDoc ls).toList =
      ((ls.map (fun gl => (tagTiny gl, goalLineChars gl))).map
        (fun p => p.2 ++ ['\n'])).flatten := by
    show ((ls.map (fun l => goalLineChars l ++ ['\n']))).flatten = _
    rw [List.map_map]
    rfl
  rw [hdoc]
  rw [scanPairs_lines "- После ".toList " → ".toList (by decide) (by decide)
    (by decide) _ ?_]
  · rw [List.filterMap_map]
    rfl
  · intro p hp
    obtain ⟨gl, hgl, rfl⟩ := List.mem_map.mp hp
    have hgood := h gl hgl
    cases gl with
    | tiny x a =>
      show (goalLineChars (.tiny x a)) =
          "- После ".toList ++ (x.toList ++ " → ".toList ++ a.toList) ∧ _
      unfold goodGoalLine at hgood
      simp only [Bool.and_eq_true, Bool.not_eq_true'] at hgood
      obtain ⟨⟨⟨⟨⟨hne1, hne2⟩, hn1⟩, hn2⟩, hfs⟩, _⟩ := hgood
      refine ⟨by simp [goalLineChars], ne_nil_of_isEmpty_false hne1,
        ne_nil_of_isEmpty_false hne2, not_mem_of_contains_false hn1,
        not_mem_of_contains_false hn2, firstSepOnly_spec _ _ hfs⟩
    | ii t a =>
      show occursIn "- После ".toList (goalLineChars (.ii t a)) = false
      unfold goodGoalLine at hgood
      simp only [Bool.and_eq_true, Bool.not_eq_true'] at hgood
      exact hgood.2
    | other s =>
      show occursIn "- После ".toList (goalLineChars (.other s)) = false
      unfold goodGoalLine at hgood
      simp only [Bool.and_eq_true, Bool.not_eq_true'] at hgood
      exact hgood.2

/-- Claim C9: over a goal document built from well-formed lines, each
`- ЕСЛИ <trigger> → ТО <action>` line yields exactly one
`implementation_intention` habit with that (whitespace-stripped) trigger and
action, each `- После <anchor> → <action>` line yields exactly one
`tiny_habit` whose action has any trailing celebration suffix
introduced by the fixed separator removed, and no deduplication is
performed: the result is a per-line `filterMap` (which keeps duplicates, so
textually identical lines yield that many habit instances), all
implementation intentions preceding all tiny habits as in the source's two
passes. -/
theorem claim9_extract_habits (ls : List GoalLine)
    (h : ∀ gl ∈ ls, goodGoalLine gl = true) :
    extract_habits (goalDoc ls) =
      ls.filterMap (fun gl => match gl with
        | .ii t a => some (iiHabitOf t a)
        | _ => none) ++
      ls.filterMap (fun gl => match gl with
        | .tiny x a => some (tinyHabitOf x a)
        | _ => none) := by
  unfold extract_habits
  rw [claim9_scan_ii ls h, claim9_scan_tiny ls h]
  rw [List.map_filterMap, List.map_filterMap]
  congr 1
  · apply congrArg (fun f => List.filterMap f ls)
    funext gl
    cases gl <;> rfl
  · apply congrArg (fun f => List.filterMap f ls)
    funext gl
    cases gl <;> rfl

/-- Witness for claim C9 on a concrete four-line goal document containing a
duplicated intention line and a tiny habit with a celebration suffix. -/
theorem claim9_witness :
    extract_habits (goalDoc
      [.ii "устал" "отдыхаю", .tiny "зарядки" "пью воду → праздную: ура",
       .other "## Цель", .ii "устал" "отдыхаю"]) =
      ([.ii "устал" "отдыхаю", .tiny "зарядки" "пью воду → праздную: ура",
        .other "## Цель", .ii "устал" "отдыхаю"] :
          List GoalLine).filterMap (fun gl => match gl with
        | .ii t a => some (iiHabitOf t a)
        | _ => none) ++
      ([.ii "устал" "отдыхаю", .tiny "зарядки" "пью воду → праздную: ура",
        .other "## Цель", .ii "устал" "отдыхаю"] :
          List GoalLine).filterMap (fun gl => match gl with
        | .tiny x a => some (tinyHabitOf x a)
        | _ => none) :=
  claim9_extract_habits
    [.ii "устал" "отдыхаю", .tiny "зарядки" "пью воду → праздную: ура",
     .other "## Цель", .ii "устал" "отдыхаю"]
    (by decide)

/-! ### Helper lemmas for the critical-event claims -/

theorem occursIn_map (f : Char → Char) (p l : List Char)
    (h : occursIn p l = true) : occursIn (p.map f) (l.map f) = true := by
  induction l with
  | nil =>
    unfold occursIn at h ⊢
    cases p with
    | nil => rfl
    | cons a q => cases h
  | cons c t ih =>
    rw [List.map_cons]
    unfold occursIn at h ⊢
    rw [Bool.or_eq_true] at h ⊢
    rcases h with h | h
    · left
      have hp := List.isPrefixOf_iff_prefix.mp h
      rw [List.isPrefixOf_iff_prefix]
      have := hp.map f
      simpa using this
    · right
      exact ih h

theorem context_len_le (content : String) (k : String) :
    (contextSnippet content k).length ≤ 200 := by
  unfold contextSnippet
  split
  · simp
  · show (List.take 200 _).length ≤ 200
    rw [List.length_take]
    omega

theorem filterMap_keyword_count (ks : List String)
    (f : String → Option CriticalEvent)
    (hf : ∀ k e, f k = some e → e.keyword = k) (hnd : ks.Nodup) (k : String) :
    ((ks.filterMap f).filter (fun e => e.keyword == k)).length =
      if k ∈ ks then (match f k with | some _ => 1 | none => 0) else 0 := by
  induction ks with
  | nil => simp
  | cons k0 ks ih =>
    have hnd2 : ks.Nodup := hnd.of_cons
    have hk0 : k0 ∉ ks := by
      rw [List.nodup_cons] at hnd
      exact hnd.1
    rw [List.filterMap_cons]
    cases hf0 : f k0 with
    | none =>
      rw [ih hnd2]
      by_cases hkk : k = k0
      · subst hkk
        rw [if_neg hk0, if_pos (List.mem_cons_self k ks)]
        rw [hf0]
      · by_cases hks : k ∈ ks
        · rw [if_pos hks, if_pos (List.mem_cons_of_mem k0 hks)]
        · rw [if_neg hks, if_neg (by
            intro h
            rcases List.mem_cons.mp h with h | h
            · exact hkk h
            · exact hks h)]
    | some e =>
      have hek : e.keyword = k0 := hf k0 e hf0
      rw [List.filter_cons]
      by_cases hkk : k = k0
      · subst hkk
        rw [show (e.keyword == k) = true from by rw [hek]; simp]
        simp only [if_true]
        rw [List.length_cons, ih hnd2, if_neg hk0, if_pos (List.mem_cons_self k ks)]
        rw [hf0]
      · rw [show (e.keyword == k) = false from by
          rw [hek]
          exact beq_eq_false_iff_ne.mpr (fun h => hkk h.symm)]
        simp only [Bool.false_eq_true, if_false]
        rw [ih hnd2]
        by_cases hks : k ∈ ks
        · rw [if_pos hks, if_pos (List.mem_cons_of_mem k0 hks)]
        · rw [if_neg hks, if_neg (by
            intro h
            rcases List.mem_cons.mp h with h | h
            · exact hkk h
            · exact hks h)]

/-- Claim C5: any text containing the substring "авария" produces at least
one FORCED_CHANGE event with confidence "high"; more generally every keyword
of either lexicon that matches (case-insensitively) anywhere in the text
produces exactly one CriticalEvent carrying that keyword — the event count
for a keyword is 1 if it matches and 0 otherwise — built from the first
regex match of the context pattern only, and every event's context snippet
is at most 200 characters long. -/
theorem claim5_detector (content : String) (k : String)
    (hk : k ∈ forced_keywords ++ voluntary_keywords)
    (hav : occursIn "авария".toList content.toList = true) :
    (∃ e ∈ detect_critical_events content,
      e.type = "FORCED_CHANGE" ∧ e.confidence = "high") ∧
    ((detect_critical_events content).filter
      (fun e => e.keyword == k)).length =
      (if occursIn k.toList (lowerStr content.toList) then 1 else 0) ∧
    (detect_critical_events content).all
      (fun e => decide (e.context.length ≤ 200)) = true := by
  have hgate : occursIn "авария".toList (lowerStr content.toList) = true := by
    have := occursIn_map lowerChar "авария".toList content.toList hav
    simpa using this
  refine ⟨?_, ?_, ?_⟩
  · have hmem : ({ type := "FORCED_CHANGE", keyword := "авария",
                   context := contextSnippet content "авария",
                   confidence := "high" } : CriticalEvent) ∈
          detect_critical_events content := by
      apply List.mem_append_left
      apply List.mem_filterMap.mpr
      refine ⟨"авария", by decide, ?_⟩
      rw [hgate]
      rfl
    exact ⟨_, hmem, rfl, rfl⟩
  · unfold detect_critical_events
    rw [List.filter_append, List.length_append]
    have hfF : ∀ (k0 : String) (e : CriticalEvent),
        (if occursIn k0.toList (lowerStr content.toList) then
          some { type := "FORCED_CHANGE", keyword := k0,
                 context := contextSnippet content k0,
                 confidence := if high_confidence_keywords.contains k0 then "high"
                               else "medium" }
        else (none : Option CriticalEvent)) = some e → e.keyword = k0 := by
      intro k0 e h
      by_cases hg : occursIn k0.toList (lowerStr content.toList) = true
      · rw [hg] at h
        simp only [if_true, Option.some.injEq] at h
        rw [← h]
      · rw [Bool.not_eq_true] at hg
        rw [hg] at h
        simp at h
    have hfV : ∀ (k0 : String) (e : CriticalEvent),
        (if occursIn k0.toList (lowerStr content.toList) then
          some { type := "VOLUNTARY_CHANGE", keyword := k0,
                 context := contextSnippet content k0,
                 confidence := "medium" }
        else (none : Option CriticalEvent)) = some e → e.keyword = k0 := by
      intro k0 e h
      by_cases hg : occursIn k0.toList (lowerStr content.toList) = true
      · rw [hg] at h
        simp only [if_true, Option.some.injEq] at h
        rw [← h]
      · rw [Bool.not_eq_true] at hg
        rw [hg] at h
        simp at h
    rw [filterMap_keyword_count forced_keywords _ hfF (by decide) k]
    rw [filterMap_keyword_count voluntary_keywords _ hfV (by decide) k]
    rcases List.mem_append.mp hk with hkf | hkv
    · rw [if_pos hkf, if_neg (show k ∉ voluntary_keywords from
        fun hv => (show ∀ x ∈ forced_keywords, x ∉ voluntary_keywords by decide)
          k hkf hv)]
      cases hg : occursIn k.toList (lowerStr content.toList) <;> simp
    · rw [if_pos hkv, if_neg (show k ∉ forced_keywords from
        fun hf => (show ∀ x ∈ forced_keywords, x ∉ voluntary_keywords by decide)
          k hf hkv)]
      cases hg : occursIn k.toList (lowerStr content.toList) <;> simp
  · apply List.all_eq_true.mpr
    intro e he
    unfold detect_critical_events at he
    rcases List.mem_append.mp he with h | h <;>
    · obtain ⟨k0, _, hk0⟩ := List.mem_filterMap.mp h
      by_cases hg : occursIn k0.toList (lowerStr content.toList) = true
      · rw [hg] at hk0
        simp only [if_true, Option.some.injEq] at hk0
        rw [← hk0]
        simp only [decide_eq_true_eq]
        exact context_len_le content k0
      · rw [Bool.not_eq_true] at hg
        rw [hg] at hk0
        simp at hk0

/-- Witness for claim C5 at a concrete reflection text containing "авария"
and the keyword "потеря дохода". -/
theorem claim5_witness :
    (∃ e ∈ detect_critical_events "Вчера была авария, потеря дохода.",
      e.type = "FORCED_CHANGE" ∧ e.confidence = "high") ∧
    ((detect_critical_events "Вчера была авария, потеря дохода.").filter
      (fun e => e.keyword == "потеря дохода")).length =
      (if occursIn "потеря дохода".toList
        (lowerStr "Вчера была авария, потеря дохода.".toList) then 1 else 0) ∧
    (detect_critical_events "Вчера была авария, потеря дохода.").all
      (fun e => decide (e.context.length ≤ 200)) = true :=
  claim5_detector "Вчера была авария, потеря дохода." "потеря дохода"
    (by decide) (by decide)

/-! ### Claims C6 and C7: validate_goals.py exit code and percent warnings -/

/-- **C6.** The validation run (`validate_all`) exits with code 1 exactly when
some collected issue is critical, and with code 0 exactly when every collected
issue is non-critical (warnings and recommendations never affect the exit
code); no other exit codes are possible. -/
theorem claim6_exit_code (fs : ValidationFS) :
    (validate_all_exit fs = 1 ∨ validate_all_exit fs = 0) ∧
    (validate_all_exit fs ≠ 0 ↔
      ∃ i ∈ validate_all_report fs, i.1 = IssueLevel.critical) ∧
    (validate_all_exit fs = 0 ↔
      (validate_all_report fs).all
        (fun i => !(i.1 == IssueLevel.critical)) = true) := by
  have hmain : has_critical (validate_all_report fs) = true ↔
      ∃ i ∈ validate_all_report fs, i.1 = IssueLevel.critical := by
    unfold has_critical
    rw [Bool.not_eq_true']
    constructor
    · intro h
      cases hf : (validate_all_report fs).filter (fun i => i.1 == IssueLevel.critical) with
      | nil => rw [hf] at h; cases h
      | cons i r =>
        have hi : i ∈ (validate_all_report fs).filter (fun i => i.1 == IssueLevel.critical) := by
          rw [hf]; exact List.mem_cons_self i r
        have := List.mem_filter.mp hi
        exact ⟨i, this.1, by simpa using this.2⟩
    · intro ⟨i, hi, hc⟩
      cases hf : (validate_all_report fs).filter (fun i => i.1 == IssueLevel.critical) with
      | cons j r => rfl
      | nil =>
        exfalso
        have : i ∈ (validate_all_report fs).filter (fun i => i.1 == IssueLevel.critical) :=
          List.mem_filter.mpr ⟨hi, by simpa using hc⟩
        rw [hf] at this
        cases this
  refine ⟨?_, ?_, ?_⟩
  · unfold validate_all_exit
    cases has_critical (validate_all_report fs)
    · right; rfl
    · left; rfl
  · unfold validate_all_exit
    cases hc : has_critical (validate_all_report fs)
    · simp only [Bool.false_eq_true, if_false]
      constructor
      · intro h; exact absurd rfl h
      · intro h
        rw [← hmain] at h
        rw [hc] at h
        cases h
    · simp only [if_true]
      constructor
      · intro _
        exact hmain.mp hc
      · intro _
        exact one_ne_zero
  · unfold validate_all_exit
    cases hc : has_critical (validate_all_report fs)
    · simp only [Bool.false_eq_true, if_false]
      constructor
      · intro _
        rw [List.all_eq_true]
        intro i hi
        rw [Bool.not_eq_true', beq_eq_false_iff_ne]
        intro heq
        have : has_critical (validate_all_report fs) = true := hmain.mpr ⟨i, hi, heq⟩
        rw [hc] at this
        cases this
      · intro _; trivial
    · simp only [if_true]
      constructor
      · intro h; cases h
      · intro h
        obtain ⟨i, hi, heq⟩ := hmain.mp hc
        rw [List.all_eq_true] at h
        have := h i hi
        rw [Bool.not_eq_true', beq_eq_false_iff_ne] at this
        exact absurd heq this

/-- **C7.** A readable goal file containing a percent token above 100 receives
the warning "Процент выше 100%: N%"; every percent-based issue is a warning
(never a critical), and per-file validation always runs all four checks
(sections, status, date, percents) and concatenates their issues — a
percent > 100 never aborts validation. -/
theorem claim7_percent_warning (content : String) (tok : List Char)
    (htok : tok ∈ percentTokens content.toList)
    (hval : parseDigits tok > 100) :
    (IssueLevel.warning, "Процент выше 100%: " ++ String.mk tok ++ "%") ∈
      validate_goal_file (.ok content) ∧
    (percentIssues content).all
      (fun i => i.1 == IssueLevel.warning) = true ∧
    validate_goal_file (.ok content) =
      sectionIssues content ++ statusIssues content ++
        dateIssues content ++ percentIssues content := by
  refine ⟨?_, ?_, rfl⟩
  · show _ ∈ sectionIssues content ++ statusIssues content ++
      dateIssues content ++ percentIssues content
    apply List.mem_append_right
    unfold percentIssues
    apply List.mem_filterMap.mpr
    refine ⟨tok, htok, ?_⟩
    rw [if_pos hval]
  · apply List.all_eq_true.mpr
    intro i hi
    unfold percentIssues at hi
    obtain ⟨t, _, ht⟩ := List.mem_filterMap.mp hi
    by_cases hv : parseDigits t > 100
    · rw [if_pos hv] at ht
      simp only [Option.some.injEq] at ht
      rw [← ht]
      rfl
    · rw [if_neg hv] at ht
      cases ht

/-- Witness for claim C7 at a concrete goal text whose completion percent
is 150%. -/
theorem claim7_witness :
    "150".toList ∈ percentTokens ("**Выполнение операций:** 150%").toList ∧
    parseDigits "150".toList > 100 ∧
    (IssueLevel.warning, "Процент выше 100%: 150%") ∈
      validate_goal_file (.ok "**Выполнение операций:** 150%") := by
  refine ⟨by decide, by decide, ?_⟩
  have h := claim7_percent_warning "**Выполнение операций:** 150%" "150".toList
    (by decide) (by decide)
  exact h.1

/-! ### Helper lemmas for the metrics-update claims -/


theorem natCharsAux_append (f : Nat) : ∀ n acc,
    natCharsAux f n acc = natCharsAux f n [] ++ acc := by
  induction f with
  | zero => intro n acc; rfl
  | succ f ih =>
    intro n acc
    unfold natCharsAux
    split
    · rfl
    · rw [ih (n / 10) (Char.ofNat (48 + n % 10) :: acc),
          ih (n / 10) (Char.ofNat (48 + n % 10) :: [])]
      simp

theorem natCharsAux_irrel : ∀ n f g acc, n < f → n < g →
    natCharsAux f n acc = natCharsAux g n acc := by
  intro n
  induction n using Nat.strong_induction_on with
  | _ n ih =>
    intro f g acc hf hg
    match f, g with
    | f + 1, g + 1 =>
      unfold natCharsAux
      split
      · rfl
      · rename_i h
        have h10 : 10 ≤ n := Nat.le_of_not_lt h
        have hlt : n / 10 < n := Nat.div_lt_self (by omega) (by omega)
        exact ih (n / 10) hlt f g _ (by omega) (by omega)

theorem natChars_head_lt (n : Nat) (h : n < 10) :
    natChars n = [Char.ofNat (48 + n)] := by
  unfold natChars natCharsAux
  rw [if_pos h]

theorem natChars_ge (n : Nat) (h : 10 ≤ n) :
    natChars n = natChars (n / 10) ++ [Char.ofNat (48 + n % 10)] := by
  unfold natChars
  conv_lhs => unfold natCharsAux
  rw [if_neg (by omega)]
  rw [natCharsAux_append]
  have hlt : n / 10 < n := Nat.div_lt_self (by omega) (by decide)
  rw [natCharsAux_irrel (n / 10) n (n / 10 + 1) [] (by omega) (by omega)]

theorem digit_char_isDigit (n : Nat) (h : n < 10) :
    (Char.ofNat (48 + n)).isDigit = true := by
  interval_cases n <;> decide

theorem digit_char_toNat (n : Nat) (h : n < 10) :
    (Char.ofNat (48 + n)).toNat = 48 + n := by
  interval_cases n <;> decide

theorem natChars_all_digits (n : Nat) :
    (natChars n).all Char.isDigit = true := by
  induction n using Nat.strong_induction_on with
  | _ n ih =>
    by_cases h : n < 10
    · rw [natChars_head_lt n h]
      simp [digit_char_isDigit n h]
    · rw [natChars_ge n (by omega)]
      rw [List.all_append, Bool.and_eq_true]
      constructor
      · exact ih (n / 10) (Nat.div_lt_self (by omega) (by decide))
      · simp [digit_char_isDigit (n % 10) (Nat.mod_lt n (by decide))]

theorem natChars_ne_nil (n : Nat) : natChars n ≠ [] := by
  by_cases h : n < 10
  · rw [natChars_head_lt n h]; simp
  · rw [natChars_ge n (by omega)]; simp

theorem foldl_parse_natChars (n : Nat) : ∀ a : Nat,
    (natChars n).foldl (fun a c => a * 10 + (c.toNat - 48)) a =
      a * 10 ^ (natChars n).length + n := by
  induction n using Nat.strong_induction_on with
  | _ n ih =>
    intro a
    by_cases h : n < 10
    · rw [natChars_head_lt n h]
      simp [List.foldl, digit_char_toNat n h]
    · rw [natChars_ge n (by omega)]
      rw [List.foldl_append, List.length_append]
      rw [ih (n / 10) (Nat.div_lt_self (by omega) (by decide)) a]
      simp only [List.foldl, List.length_cons, List.length_nil]
      rw [digit_char_toNat (n % 10) (Nat.mod_lt n (by omega))]
      have hmod := Nat.div_add_mod n 10
      ring_nf
      omega

theorem parseDigits_natChars (n : Nat) : parseDigits (natChars n) = n := by
  unfold parseDigits
  rw [foldl_parse_natChars n 0]
  simp


theorem matchNumAt_len_pos (pre suf l : List Char) (v len : Nat)
    (h : matchNumAt pre suf l = some (v, len)) : 1 ≤ len := by
  unfold matchNumAt at h
  split at h
  · split at h
    · cases h
    · split at h
      · simp only [Option.some.injEq, Prod.mk.injEq] at h
        rw [← h.2]
        simp only [List.length_cons]
        omega
      · cases h
  · cases h

theorem subNumAux_cons (pre suf new : List Char) (f : Nat) (c : Char)
    (t : List Char) :
    subNumAux pre suf new (f + 1) (c :: t) =
      match matchNumAt pre suf (c :: t) with
      | some (_, len) =>
        pre ++ new ++ suf ++ subNumAux pre suf new f ((c :: t).drop len)
      | none => c :: subNumAux pre suf new f t := rfl

theorem subNumAux_irrel (pre suf new : List Char) : ∀ f g l,
    l.length ≤ f → l.length ≤ g →
    subNumAux pre suf new f l = subNumAux pre suf new g l := by
  intro f
  induction f using Nat.strong_induction_on with
  | _ f ih =>
    intro g l hf hg
    match l with
    | [] =>
      match f, g with
      | 0, 0 => rfl
      | 0, g + 1 => rfl
      | f + 1, 0 => rfl
      | f + 1, g + 1 => rfl
    | c :: t =>
      match f, g, hf, hg with
      | f + 1, g + 1, hf, hg =>
        rw [subNumAux_cons, subNumAux_cons]
        cases hm : matchNumAt pre suf (c :: t) with
        | none =>
          show c :: subNumAux pre suf new f t = c :: subNumAux pre suf new g t
          rw [ih f (by omega) g t (by simpa using Nat.le_of_succ_le_succ hf)
            (by simpa using Nat.le_of_succ_le_succ hg)]
        | some p =>
          match p with
          | (v, len) =>
            show pre ++ new ++ suf ++ subNumAux pre suf new f ((c :: t).drop len) = _
            have hlen := matchNumAt_len_pos pre suf (c :: t) v len hm
            have hdl : ((c :: t).drop len).length ≤ t.length := by
              rw [List.length_drop]
              simp only [List.length_cons]
              omega
            have h1 : t.length + 1 ≤ f + 1 := by simpa using hf
            have h2 : t.length + 1 ≤ g + 1 := by simpa using hg
            rw [ih f (by omega) g ((c :: t).drop len) (by omega) (by omega)]


theorem subDateAux_cons (pre new : List Char) (f : Nat) (c : Char)
    (t : List Char) :
    subDateAux pre new (f + 1) (c :: t) =
      if matchDateAt pre (c :: t) then
        pre ++ new ++ subDateAux pre new f ((c :: t).drop (pre.length + 10))
      else c :: subDateAux pre new f t := rfl

theorem subDateAux_irrel (pre new : List Char) : ∀ f g l,
    l.length ≤ f → l.length ≤ g →
    subDateAux pre new f l = subDateAux pre new g l := by
  intro f
  induction f using Nat.strong_induction_on with
  | _ f ih =>
    intro g l hf hg
    match l with
    | [] =>
      match f, g with
      | 0, 0 => rfl
      | 0, g + 1 => rfl
      | f + 1, 0 => rfl
      | f + 1, g + 1 => rfl
    | c :: t =>
      match f, g, hf, hg with
      | f + 1, g + 1, hf, hg =>
        rw [subDateAux_cons, subDateAux_cons]
        have h1 : t.length + 1 ≤ f + 1 := by simpa using hf
        have h2 : t.length + 1 ≤ g + 1 := by simpa using hg
        by_cases hm : matchDateAt pre (c :: t) = true
        · rw [if_pos hm, if_pos hm]
          have hdl : ((c :: t).drop (pre.length + 10)).length ≤ t.length := by
            rw [List.length_drop]
            simp only [List.length_cons]
            omega
          rw [ih f (by omega) g ((c :: t).drop (pre.length + 10)) (by omega)
            (by omega)]
        · rw [if_neg hm, if_neg hm]
          rw [ih f (by omega) g t (by omega) (by omega)]

theorem histMatchLen_pos (l : List Char) (len : Nat)
    (h : histMatchLen l = some len) : 1 ≤ len := by
  unfold histMatchLen at h
  split at h
  · split at h
    · cases h
    · simp only [Option.some.injEq] at h
      rw [← h]
      simp only [List.length_cons]
      omega
  · cases h

theorem histSubAux_cons (entry : List Char) (f : Nat) (c : Char)
    (t : List Char) :
    histSubAux entry (f + 1) (c :: t) =
      match histMatchLen (c :: t) with
      | some len =>
        (c :: t).take len ++ '\n' ::
          (entry ++ '\n' :: histSubAux entry f ((c :: t).drop len))
      | none => c :: histSubAux entry f t := rfl

theorem histSubAux_irrel (entry : List Char) : ∀ f g l,
    l.length ≤ f → l.length ≤ g →
    histSubAux entry f l = histSubAux entry g l := by
  intro f
  induction f using Nat.strong_induction_on with
  | _ f ih =>
    intro g l hf hg
    match l with
    | [] =>
      match f, g with
      | 0, 0 => rfl
      | 0, g + 1 => rfl
      | f + 1, 0 => rfl
      | f + 1, g + 1 => rfl
    | c :: t =>
      match f, g, hf, hg with
      | f + 1, g + 1, hf, hg =>
        rw [histSubAux_cons, histSubAux_cons]
        have h1 : t.length + 1 ≤ f + 1 := by simpa using hf
        have h2 : t.length + 1 ≤ g + 1 := by simpa using hg
        cases hm : histMatchLen (c :: t) with
        | none =>
          show c :: histSubAux entry f t = c :: histSubAux entry g t
          rw [ih f (by omega) g t (by omega) (by omega)]
        | some len =>
          show (c :: t).take len ++ '\n' ::
              (entry ++ '\n' :: histSubAux entry f ((c :: t).drop len)) = _
          have hlen := histMatchLen_pos (c :: t) len hm
          have hdl : ((c :: t).drop len).length ≤ t.length := by
            rw [List.length_drop]
            simp only [List.length_cons]
            omega
          rw [ih f (by omega) g ((c :: t).drop len) (by omega) (by omega)]



theorem noStartIn_sound (pre L : List Char) (h : noStartIn pre L = true) :
    ∀ i, i < L.length → ∀ rest, pre.isPrefixOf (L.drop i ++ rest) = false := by
  intro i hi rest
  unfold noStartIn at h
  rw [List.all_eq_true] at h
  have hmem : i ∈ List.range L.length := List.mem_range.mpr hi
  have h2 := h i hmem
  rw [List.any_eq_true] at h2
  obtain ⟨j, hj, hcase⟩ := h2
  rw [List.mem_range] at hj
  by_contra hpf
  rw [Bool.not_eq_false] at hpf
  have hprefix := List.isPrefixOf_iff_prefix.mp hpf
  obtain ⟨t, ht⟩ := hprefix
  -- extract the mismatching characters
  cases ha : pre[j]? with
  | none =>
    rw [ha] at hcase
    cases hcase
  | some a =>
    cases hb : L[i + j]? with
    | none =>
      rw [ha, hb] at hcase
      cases hcase
    | some b =>
      rw [ha, hb] at hcase
      simp only [bne_iff_ne, ne_eq] at hcase
      -- from the prefix equation, character j of both sides agree
      have hget : (L.drop i ++ rest)[j]? = some a := by
        rw [← ht]
        rw [List.getElem?_append_left (by omega)]
        exact ha
      have hlen : i + j < L.length := by
        have := List.getElem?_eq_some.mp hb
        exact this.1
      have hget2 : (L.drop i ++ rest)[j]? = L[i + j]? := by
        rw [List.getElem?_append_left (by rw [List.length_drop]; omega)]
        rw [List.getElem?_drop]
      rw [hget2, hb] at hget
      simp only [Option.some.injEq] at hget
      exact hcase hget.symm



theorem isPrefixOf_false_head (p0 : Char) (ps : List Char) (L rest : List Char)
    (h : ∀ c ∈ L, (p0 == c) = false) :
    ∀ i, i < L.length → (p0 :: ps).isPrefixOf (L.drop i ++ rest) = false := by
  intro i hi
  rw [List.drop_eq_getElem_cons hi, List.cons_append]
  show (p0 == L[i] && ps.isPrefixOf (L.drop (i + 1) ++ rest)) = false
  rw [h L[i] (L.getElem_mem hi), Bool.false_and]

theorem all_beq_false_of_digits (p0 : Char) (L : List Char)
    (hL : L.all Char.isDigit = true) (hp : p0.isDigit = false) :
    ∀ c ∈ L, (p0 == c) = false := by
  intro c hc
  rw [List.all_eq_true] at hL
  have := hL c hc
  rw [beq_eq_false_iff_ne]
  intro he
  rw [he] at hp
  rw [this] at hp
  cases hp

theorem matchNumAt_none_of_no_pre (pre suf l : List Char)
    (h : pre.isPrefixOf l = false) : matchNumAt pre suf l = none := by
  unfold matchNumAt
  rw [h]
  rfl

theorem subNumAux_chunk (pre suf new : List Char) : ∀ (L : List Char)
    (f : Nat) (rest : List Char),
    (∀ i, i < L.length → pre.isPrefixOf (L.drop i ++ rest) = false) →
    (L ++ rest).length ≤ f →
    subNumAux pre suf new f (L ++ rest) =
      L ++ subNumAux pre suf new (f - L.length) rest := by
  intro L
  induction L with
  | nil =>
    intro f rest _ _
    simp
  | cons c L ih =>
    intro f rest hno hf
    match f, hf with
    | f + 1, hf =>
      rw [List.cons_append, subNumAux_cons]
      have h0 := hno 0 (by simp)
      rw [List.drop_zero, List.cons_append] at h0
      rw [matchNumAt_none_of_no_pre pre suf _ h0]
      show c :: subNumAux pre suf new f (L ++ rest) = _
      rw [ih f rest (fun i hi => by
          have := hno (i + 1) (by simpa using Nat.succ_lt_succ hi)
          simpa using this)
        (by
          rw [List.length_append]
          simp only [List.cons_append, List.length_cons, List.length_append] at hf
          omega)]
      have hfe : f + 1 - (c :: L).length = f - L.length := by
        simp only [List.length_cons]
        omega
      rw [hfe, List.cons_append]

theorem subNumAll_chunk (pre suf new : List Char) (L rest : List Char)
    (hno : ∀ i, i < L.length → pre.isPrefixOf (L.drop i ++ rest) = false) :
    subNumAll pre suf new (L ++ rest) = L ++ subNumAll pre suf new rest := by
  unfold subNumAll
  rw [subNumAux_chunk pre suf new L ((L ++ rest).length + 1) rest hno (by omega)]
  congr 2
  rw [List.length_append]
  omega

theorem findNum_chunk (pre suf : List Char) (L rest : List Char)
    (hno : ∀ i, i < L.length → pre.isPrefixOf (L.drop i ++ rest) = false) :
    findNum pre suf (L ++ rest) = findNum pre suf rest := by
  induction L with
  | nil => simp
  | cons c L ih =>
    rw [List.cons_append]
    show (match matchNumAt pre suf (c :: (L ++ rest)) with
      | some (v, _) => some v
      | none => findNum pre suf (L ++ rest)) = _
    have h0 := hno 0 (by simp)
    rw [List.drop_zero, List.cons_append] at h0
    rw [matchNumAt_none_of_no_pre pre suf _ h0]
    exact ih (fun i hi => by
      have := hno (i + 1) (by simpa using Nat.succ_lt_succ hi)
      simpa using this)


theorem matchDateAt_false_of_no_pre (pre l : List Char)
    (h : pre.isPrefixOf l = false) : matchDateAt pre l = false := by
  unfold matchDateAt
  rw [h, Bool.false_and]

theorem subDateAux_chunk (pre new : List Char) : ∀ (L : List Char)
    (f : Nat) (rest : List Char),
    (∀ i, i < L.length → pre.isPrefixOf (L.drop i ++ rest) = false) →
    (L ++ rest).length ≤ f →
    subDateAux pre new f (L ++ rest) =
      L ++ subDateAux pre new (f - L.length) rest := by
  intro L
  induction L with
  | nil =>
    intro f rest _ _
    simp
  | cons c L ih =>
    intro f rest hno hf
    match f, hf with
    | f + 1, hf =>
      rw [List.cons_append, subDateAux_cons]
      have h0 := hno 0 (by simp)
      rw [List.drop_zero, List.cons_append] at h0
      rw [if_neg (by rw [matchDateAt_false_of_no_pre pre _ h0]; exact
        Bool.false_ne_true)]
      show c :: subDateAux pre new f (L ++ rest) = _
      rw [ih f rest (fun i hi => by
          have := hno (i + 1) (by simpa using Nat.succ_lt_succ hi)
          simpa using this)
        (by
          rw [List.length_append]
          simp only [List.cons_append, List.length_cons, List.length_append] at hf
          omega)]
      have hfe : f + 1 - (c :: L).length = f - L.length := by
        simp only [List.length_cons]
        omega
      rw [hfe, List.cons_append]

theorem subDateAll_chunk (pre new : List Char) (L rest : List Char)
    (hno : ∀ i, i < L.length → pre.isPrefixOf (L.drop i ++ rest) = false) :
    subDateAll pre new (L ++ rest) = L ++ subDateAll pre new rest := by
  unfold subDateAll
  rw [subDateAux_chunk pre new L ((L ++ rest).length + 1) rest hno (by omega)]
  have hfe : (L ++ rest).length + 1 - L.length = rest.length + 1 := by
    rw [List.length_append]
    omega
  rw [hfe]

theorem histMatchLen_none_of_no_pre (l : List Char)
    (h : histLit.isPrefixOf l = false) : histMatchLen l = none := by
  unfold histMatchLen
  rw [h]
  rfl

theorem histSubAux_chunk (entry : List Char) : ∀ (L : List Char)
    (f : Nat) (rest : List Char),
    (∀ i, i < L.length → histLit.isPrefixOf (L.drop i ++ rest) = false) →
    (L ++ rest).length ≤ f →
    histSubAux entry f (L ++ rest) =
      L ++ histSubAux entry (f - L.length) rest := by
  intro L
  induction L with
  | nil =>
    intro f rest _ _
    simp
  | cons c L ih =>
    intro f rest hno hf
    match f, hf with
    | f + 1, hf =>
      rw [List.cons_append, histSubAux_cons]
      have h0 := hno 0 (by simp)
      rw [List.drop_zero, List.cons_append] at h0
      rw [histMatchLen_none_of_no_pre _ h0]
      show c :: histSubAux entry f (L ++ rest) = _
      rw [ih f rest (fun i hi => by
          have := hno (i + 1) (by simpa using Nat.succ_lt_succ hi)
          simpa using this)
        (by
          rw [List.length_append]
          simp only [List.cons_append, List.length_cons, List.length_append] at hf
          omega)]
      have hfe : f + 1 - (c :: L).length = f - L.length := by
        simp only [List.length_cons]
        omega
      rw [hfe, List.cons_append]

theorem histSubAll_chunk (entry : List Char) (L rest : List Char)
    (hno : ∀ i, i < L.length → histLit.isPrefixOf (L.drop i ++ rest) = false) :
    histSubAll entry (L ++ rest) = L ++ histSubAll entry rest := by
  unfold histSubAll
  rw [histSubAux_chunk entry L ((L ++ rest).length + 1) rest hno (by omega)]
  have hfe : (L ++ rest).length + 1 - L.length = rest.length + 1 := by
    rw [List.length_append]
    omega
  rw [hfe]

theorem histSearch_append_right (L rest : List Char)
    (h : histSearch rest = true) : histSearch (L ++ rest) = true := by
  induction L with
  | nil => simpa using h
  | cons c L ih =>
    rw [List.cons_append]
    show ((histMatchLen (c :: (L ++ rest))).isSome || histSearch (L ++ rest)) = true
    rw [ih, Bool.or_true]


theorem matchNumAt_eq (pre suf l : List Char) (d : Char) (ds : List Char)
    (hp : pre.isPrefixOf l = true)
    (htw : (l.drop pre.length).takeWhile Char.isDigit = d :: ds)
    (hsuf : suf.isPrefixOf ((l.drop pre.length).drop (d :: ds).length) = true) :
    matchNumAt pre suf l =
      some (parseDigits (d :: ds),
        pre.length + (d :: ds).length + suf.length) := by
  unfold matchNumAt
  rw [hp]
  simp only [if_true]
  rw [htw]
  show (if suf.isPrefixOf ((l.drop pre.length).drop (d :: ds).length) = true then
      some (parseDigits (d :: ds), pre.length + (d :: ds).length + suf.length)
    else none) = _
  rw [hsuf]
  rfl

theorem front_decomp (pre ds suf rest : List Char) :
    (pre ++ ds ++ suf ++ rest).drop pre.length = ds ++ suf ++ rest := by
  rw [show pre ++ ds ++ suf ++ rest = pre ++ (ds ++ suf ++ rest) by simp]
  exact List.drop_left _ _

theorem matchNumAt_front (pre : List Char) (d : Char) (ds : List Char)
    (s0 : Char) (suf rest : List Char)
    (hdig : (d :: ds).all Char.isDigit = true) (hs0 : s0.isDigit = false) :
    matchNumAt pre (s0 :: suf) (pre ++ (d :: ds) ++ (s0 :: suf) ++ rest) =
      some (parseDigits (d :: ds),
        pre.length + (d :: ds).length + (s0 :: suf).length) := by
  apply matchNumAt_eq
  · rw [show pre ++ (d :: ds) ++ (s0 :: suf) ++ rest =
      pre ++ ((d :: ds) ++ (s0 :: suf) ++ rest) by simp]
    exact isPrefixOf_append_self pre _
  · rw [front_decomp]
    rw [show (d :: ds) ++ (s0 :: suf) ++ rest = (d :: ds) ++ s0 :: (suf ++ rest)
      by simp]
    exact takeWhile_all_append Char.isDigit (d :: ds) s0 (suf ++ rest)
      (fun x hx => by
        rw [List.all_eq_true] at hdig
        exact hdig x hx) hs0
  · rw [front_decomp]
    rw [show (d :: ds) ++ (s0 :: suf) ++ rest =
      (d :: ds) ++ ((s0 :: suf) ++ rest) by simp]
    rw [List.drop_left]
    exact isPrefixOf_append_self _ _

theorem findNum_front (p0 : Char) (pre : List Char) (d : Char) (ds : List Char)
    (s0 : Char) (suf rest : List Char)
    (hdig : (d :: ds).all Char.isDigit = true) (hs0 : s0.isDigit = false) :
    findNum (p0 :: pre) (s0 :: suf)
        ((p0 :: pre) ++ (d :: ds) ++ (s0 :: suf) ++ rest) =
      some (parseDigits (d :: ds)) := by
  have hm := matchNumAt_front (p0 :: pre) d ds s0 suf rest hdig hs0
  rw [show (p0 :: pre) ++ (d :: ds) ++ (s0 :: suf) ++ rest =
    p0 :: (pre ++ (d :: ds) ++ (s0 :: suf) ++ rest) by simp] at hm ⊢
  show (match matchNumAt (p0 :: pre) (s0 :: suf)
      (p0 :: (pre ++ (d :: ds) ++ (s0 :: suf) ++ rest)) with
    | some (v, _) => some v
    | none => findNum (p0 :: pre) (s0 :: suf)
        (pre ++ (d :: ds) ++ (s0 :: suf) ++ rest)) = some (parseDigits (d :: ds))
  rw [hm]

theorem subNumAll_front (p0 : Char) (pre : List Char) (d : Char)
    (ds : List Char) (s0 : Char) (suf new rest : List Char)
    (hdig : (d :: ds).all Char.isDigit = true) (hs0 : s0.isDigit = false) :
    subNumAll (p0 :: pre) (s0 :: suf) new
        ((p0 :: pre) ++ (d :: ds) ++ (s0 :: suf) ++ rest) =
      (p0 :: pre) ++ new ++ (s0 :: suf) ++
        subNumAll (p0 :: pre) (s0 :: suf) new rest := by
  have hm := matchNumAt_front (p0 :: pre) d ds s0 suf rest hdig hs0
  unfold subNumAll
  rw [show (p0 :: pre) ++ (d :: ds) ++ (s0 :: suf) ++ rest =
    p0 :: (pre ++ (d :: ds) ++ (s0 :: suf) ++ rest) by simp] at hm ⊢
  rw [show (p0 :: (pre ++ (d :: ds) ++ (s0 :: suf) ++ rest)).length =
    (pre ++ (d :: ds) ++ (s0 :: suf) ++ rest).length + 1 from by
      simp only [List.length_cons]]
  rw [subNumAux_cons]
  rw [hm]
  show (p0 :: pre) ++ new ++ (s0 :: suf) ++ _ = _
  have hdrop : (p0 :: (pre ++ (d :: ds) ++ (s0 :: suf) ++ rest)).drop
      ((p0 :: pre).length + (d :: ds).length + (s0 :: suf).length) = rest := by
    rw [show p0 :: (pre ++ (d :: ds) ++ (s0 :: suf) ++ rest) =
      ((p0 :: pre) ++ (d :: ds) ++ (s0 :: suf)) ++ rest by simp]
    rw [show (p0 :: pre).length + (d :: ds).length + (s0 :: suf).length =
      ((p0 :: pre) ++ (d :: ds) ++ (s0 :: suf)).length from by
        simp only [List.length_append, List.length_cons]
        try omega]
    exact List.drop_left _ _
  rw [hdrop]
  rw [subNumAux_irrel (p0 :: pre) (s0 :: suf) new
    ((pre ++ (d :: ds) ++ (s0 :: suf) ++ rest).length + 1) (rest.length + 1) rest
    (by simp only [List.length_append, List.length_cons]; omega) (by omega)]

theorem isDatePrefix_append (d0 rest : List Char) (h : d0.length = 10) :
    isDatePrefix (d0 ++ rest) = isDatePrefix d0 := by
  rcases d0 with _ | ⟨c1, _ | ⟨c2, _ | ⟨c3, _ | ⟨c4, _ | ⟨c5, _ | ⟨c6, _ |
    ⟨c7, _ | ⟨c8, _ | ⟨c9, _ | ⟨c10, tl⟩⟩⟩⟩⟩⟩⟩⟩⟩⟩ <;>
    simp_all
  have htl : tl = [] := by
    simpa using h
  subst htl
  rfl


theorem subDateAll_front (p0 : Char) (pre d0 rest new : List Char)
    (h10 : d0.length = 10) (hdp : isDatePrefix d0 = true) :
    subDateAll (p0 :: pre) new ((p0 :: pre) ++ d0 ++ rest) =
      (p0 :: pre) ++ new ++ subDateAll (p0 :: pre) new rest := by
  have hmd : matchDateAt (p0 :: pre) ((p0 :: pre) ++ d0 ++ rest) = true := by
    unfold matchDateAt
    rw [show (p0 :: pre) ++ d0 ++ rest = (p0 :: pre) ++ (d0 ++ rest) by simp]
    rw [isPrefixOf_append_self, List.drop_left, isDatePrefix_append d0 rest h10,
      hdp]
    rfl
  unfold subDateAll
  rw [show (p0 :: pre) ++ d0 ++ rest = p0 :: (pre ++ d0 ++ rest) by simp] at hmd ⊢
  rw [show (p0 :: (pre ++ d0 ++ rest)).length = (pre ++ d0 ++ rest).length + 1
    from by simp only [List.length_cons]]
  rw [subDateAux_cons, if_pos hmd]
  have hdrop : (p0 :: (pre ++ d0 ++ rest)).drop ((p0 :: pre).length + 10) =
      rest := by
    rw [show p0 :: (pre ++ d0 ++ rest) = ((p0 :: pre) ++ d0) ++ rest by simp]
    rw [show (p0 :: pre).length + 10 = ((p0 :: pre) ++ d0).length from by
      simp only [List.length_append, List.length_cons]
      omega]
    exact List.drop_left _ _
  rw [hdrop]
  rw [subDateAux_irrel (p0 :: pre) new ((pre ++ d0 ++ rest).length + 1)
    (rest.length + 1) rest
    (by simp only [List.length_append, List.length_cons]; omega) (by omega)]

theorem histSubAll_tail (entry : List Char) :
    histSubAll entry "\n## ИСТОРИЯ ИЗМЕНЕНИЙ\n".toList =
      "\n## ИСТОРИЯ ИЗМЕНЕНИЙ\n\n".toList ++ (entry ++ ['\n']) := rfl

theorem histSearch_tail : histSearch "\n## ИСТОРИЯ ИЗМЕНЕНИЙ\n".toList = true := by
  decide

theorem all_beq_false_of_dateish (p0 : Char) (L : List Char)
    (hL : L.all (fun c => c.isDigit || c == '-') = true)
    (hp : p0.isDigit = false) (hpd : (p0 == '-') = false) :
    ∀ c ∈ L, (p0 == c) = false := by
  intro c hc
  rw [List.all_eq_true] at hL
  have h1 := hL c hc
  rw [Bool.or_eq_true] at h1
  rw [beq_eq_false_iff_ne]
  intro he
  subst he
  rcases h1 with h1 | h1
  · rw [h1] at hp
    cases hp
  · rw [h1] at hpd
    cases hpd

theorem subNumAll_front2 (pre suf new ds rest : List Char)
    (hpre : pre ≠ []) (hds : ds ≠ []) (hdig : ds.all Char.isDigit = true)
    (hsuf : suf ≠ []) (hs0 : (suf.headD 'x').isDigit = false) :
    subNumAll pre suf new (pre ++ (ds ++ (suf ++ rest))) =
      pre ++ (new ++ (suf ++ subNumAll pre suf new rest)) := by
  match pre, hpre with
  | p0 :: pre, _ =>
    match suf, hsuf with
    | s0 :: suf, _ =>
      match ds, hds with
      | d :: ds, _ =>
        have h := subNumAll_front p0 pre d ds s0 suf new rest hdig (by simpa using hs0)
        simp only [List.append_assoc] at h ⊢
        exact h

theorem findNum_front2 (pre suf ds rest : List Char)
    (hpre : pre ≠ []) (hds : ds ≠ []) (hdig : ds.all Char.isDigit = true)
    (hsuf : suf ≠ []) (hs0 : (suf.headD 'x').isDigit = false) :
    findNum pre suf (pre ++ (ds ++ (suf ++ rest))) = some (parseDigits ds) := by
  match pre, hpre with
  | p0 :: pre, _ =>
    match suf, hsuf with
    | s0 :: suf, _ =>
      match ds, hds with
      | d :: ds, _ =>
        have h := findNum_front p0 pre d ds s0 suf rest hdig (by simpa using hs0)
        simp only [List.append_assoc] at h ⊢
        exact h

theorem subDateAll_front2 (pre d0 rest new : List Char) (hpre : pre ≠ [])
    (h10 : d0.length = 10) (hdp : isDatePrefix d0 = true) :
    subDateAll pre new (pre ++ (d0 ++ rest)) =
      pre ++ (new ++ subDateAll pre new rest) := by
  match pre, hpre with
  | p0 :: pre, _ =>
    have h := subDateAll_front p0 pre d0 rest new h10 hdp
    simp only [List.append_assoc] at h ⊢
    exact h

theorem isPrefixOf_false_head2 (pre : List Char) (hpre : pre ≠ [])
    (L rest : List Char) (h : ∀ c ∈ L, (pre.headD 'x' == c) = false) :
    ∀ i, i < L.length → pre.isPrefixOf (L.drop i ++ rest) = false := by
  match pre, hpre with
  | p0 :: pre, _ =>
    exact isPrefixOf_false_head p0 pre L rest (by simpa using h)

theorem natChars_cons (n : Nat) : ∃ d ds, natChars n = d :: ds := by
  cases hh : natChars n with
  | nil => exact absurd hh (natChars_ne_nil n)
  | cons d ds => exact ⟨d, ds, rfl⟩

theorem goalMetricsDoc_shape (p q : Nat) (d0 : String) :
    goalMetricsDoc p q d0 =
      "# Цель\n".toList ++ (progressPre ++ (natChars p ++ (progressSuf ++
      ("\n".toList ++ (percentPre ++ (natChars q ++ (percentSuf ++
      ("\n".toList ++ (datePre ++ (d0.toList ++
        ("\n## ИСТОРИЯ ИЗМЕНЕНИЙ\n".toList ++ ([] : List Char)))))))))))) := by
  unfold goalMetricsDoc progressPre progressSuf percentPre percentSuf datePre
  simp only [List.append_assoc, List.append_nil]
  rfl

theorem subNum_progress_doc (p q n : Nat) (d0 : String)
    (hd0c : d0.toList.all (fun c => c.isDigit || c == '-') = true) :
    subNumAll progressPre progressSuf (natChars n) (goalMetricsDoc p q d0) =
      goalMetricsDoc n q d0 := by
  have hndig : ∀ m : Nat, ∀ c ∈ natChars m, (progressPre.headD 'x' == c) = false :=
    fun m => all_beq_false_of_digits '*' (natChars m) (natChars_all_digits m)
      (by decide)
  have hdc : ∀ c ∈ d0.toList, (progressPre.headD 'x' == c) = false :=
    all_beq_false_of_dateish '*' d0.toList hd0c (by decide) (by decide)
  rw [goalMetricsDoc_shape p q d0, goalMetricsDoc_shape n q d0]
  rw [subNumAll_chunk _ _ _ ("# Цель\n".toList) _
    (fun i hi => noStartIn_sound _ _ (by decide) i hi _)]
  rw [subNumAll_front2 progressPre progressSuf (natChars n) (natChars p) _
    (by decide) (natChars_ne_nil p) (natChars_all_digits p) (by decide) (by decide)]
  rw [subNumAll_chunk _ _ _ ("\n".toList) _
    (fun i hi => noStartIn_sound _ _ (by decide) i hi _)]
  rw [subNumAll_chunk _ _ _ percentPre _
    (fun i hi => noStartIn_sound _ _ (by decide) i hi _)]
  rw [subNumAll_chunk _ _ _ (natChars q) _
    (isPrefixOf_false_head2 progressPre (by decide) (natChars q) _ (hndig q))]
  rw [subNumAll_chunk _ _ _ percentSuf _
    (fun i hi => noStartIn_sound _ _ (by decide) i hi _)]
  rw [subNumAll_chunk _ _ _ ("\n".toList) _
    (fun i hi => noStartIn_sound _ _ (by decide) i hi _)]
  rw [subNumAll_chunk _ _ _ datePre _
    (fun i hi => noStartIn_sound _ _ (by decide) i hi _)]
  rw [subNumAll_chunk _ _ _ d0.toList _
    (isPrefixOf_false_head2 progressPre (by decide) d0.toList _ hdc)]
  rw [subNumAll_chunk _ _ _ ("\n## ИСТОРИЯ ИЗМЕНЕНИЙ\n".toList) _
    (fun i hi => noStartIn_sound _ _ (by decide) i hi _)]
  rfl

theorem findNum_progress_doc (p q : Nat) (d0 : String) :
    findNum progressPre progressSuf (goalMetricsDoc p q d0) = some p := by
  rw [goalMetricsDoc_shape p q d0]
  rw [findNum_chunk _ _ ("# Цель\n".toList) _
    (fun i hi => noStartIn_sound _ _ (by decide) i hi _)]
  rw [findNum_front2 progressPre progressSuf (natChars p) _
    (by decide) (natChars_ne_nil p) (natChars_all_digits p) (by decide) (by decide)]
  rw [parseDigits_natChars]

theorem subNum_percent_doc (p q n : Nat) (d0 : String)
    (hd0c : d0.toList.all (fun c => c.isDigit || c == '-') = true) :
    subNumAll percentPre percentSuf (natChars n) (goalMetricsDoc p q d0) =
      goalMetricsDoc p n d0 := by
  have hndig : ∀ m : Nat, ∀ c ∈ natChars m, (percentPre.headD 'x' == c) = false :=
    fun m => all_beq_false_of_digits '*' (natChars m) (natChars_all_digits m)
      (by decide)
  have hdc : ∀ c ∈ d0.toList, (percentPre.headD 'x' == c) = false :=
    all_beq_false_of_dateish '*' d0.toList hd0c (by decide) (by decide)
  rw [goalMetricsDoc_shape p q d0, goalMetricsDoc_shape p n d0]
  rw [subNumAll_chunk _ _ _ ("# Цель\n".toList) _
    (fun i hi => noStartIn_sound _ _ (by decide) i hi _)]
  rw [subNumAll_chunk _ _ _ progressPre _
    (fun i hi => noStartIn_sound _ _ (by decide) i hi _)]
  rw [subNumAll_chunk _ _ _ (natChars p) _
    (isPrefixOf_false_head2 percentPre (by decide) (natChars p) _ (hndig p))]
  rw [subNumAll_chunk _ _ _ progressSuf _
    (fun i hi => noStartIn_sound _ _ (by decide) i hi _)]
  rw [subNumAll_chunk _ _ _ ("\n".toList) _
    (fun i hi => noStartIn_sound _ _ (by decide) i hi _)]
  rw [subNumAll_front2 percentPre percentSuf (natChars n) (natChars q) _
    (by decide) (natChars_ne_nil q) (natChars_all_digits q) (by decide) (by decide)]
  rw [subNumAll_chunk _ _ _ ("\n".toList) _
    (fun i hi => noStartIn_sound _ _ (by decide) i hi _)]
  rw [subNumAll_chunk _ _ _ datePre _
    (fun i hi => noStartIn_sound _ _ (by decide) i hi _)]
  rw [subNumAll_chunk _ _ _ d0.toList _
    (isPrefixOf_false_head2 percentPre (by decide) d0.toList _ hdc)]
  rw [subNumAll_chunk _ _ _ ("\n## ИСТОРИЯ ИЗМЕНЕНИЙ\n".toList) _
    (fun i hi => noStartIn_sound _ _ (by decide) i hi _)]
  rfl

theorem subDate_doc (p q : Nat) (d0 today : String)
    (h10 : d0.toList.length = 10) (hdp : isDatePrefix d0.toList = true) :
    subDateAll datePre today.toList (goalMetricsDoc p q d0) =
      goalMetricsDoc p q today := by
  have hndig : ∀ m : Nat, ∀ c ∈ natChars m, (datePre.headD 'x' == c) = false :=
    fun m => all_beq_false_of_digits '*' (natChars m) (natChars_all_digits m)
      (by decide)
  rw [goalMetricsDoc_shape p q d0, goalMetricsDoc_shape p q today]
  rw [subDateAll_chunk _ _ ("# Цель\n".toList) _
    (fun i hi => noStartIn_sound _ _ (by decide) i hi _)]
  rw [subDateAll_chunk _ _ progressPre _
    (fun i hi => noStartIn_sound _ _ (by decide) i hi _)]
  rw [subDateAll_chunk _ _ (natChars p) _
    (isPrefixOf_false_head2 datePre (by decide) (natChars p) _ (hndig p))]
  rw [subDateAll_chunk _ _ progressSuf _
    (fun i hi => noStartIn_sound _ _ (by decide) i hi _)]
  rw [subDateAll_chunk _ _ ("\n".toList) _
    (fun i hi => noStartIn_sound _ _ (by decide) i hi _)]
  rw [subDateAll_chunk _ _ percentPre _
    (fun i hi => noStartIn_sound _ _ (by decide) i hi _)]
  rw [subDateAll_chunk _ _ (natChars q) _
    (isPrefixOf_false_head2 datePre (by decide) (natChars q) _ (hndig q))]
  rw [subDateAll_chunk _ _ percentSuf _
    (fun i hi => noStartIn_sound _ _ (by decide) i hi _)]
  rw [subDateAll_chunk _ _ ("\n".toList) _
    (fun i hi => noStartIn_sound _ _ (by decide) i hi _)]
  rw [subDateAll_front2 datePre d0.toList _ today.toList (by decide) h10 hdp]
  rw [subDateAll_chunk _ _ ("\n## ИСТОРИЯ ИЗМЕНЕНИЙ\n".toList) _
    (fun i hi => noStartIn_sound _ _ (by decide) i hi _)]
  rfl

theorem goalMetricsDocUpdated_shape (p q : Nat) (t : String) (entry : List Char) :
    goalMetricsDocUpdated p q t entry =
      "# Цель\n".toList ++ (progressPre ++ (natChars p ++ (progressSuf ++
      ("\n".toList ++ (percentPre ++ (natChars q ++ (percentSuf ++
      ("\n".toList ++ (datePre ++ (t.toList ++
        ("\n## ИСТОРИЯ ИЗМЕНЕНИЙ\n\n".toList ++ (entry ++ ['\n'])))))))))))) := by
  unfold goalMetricsDocUpdated progressPre progressSuf percentPre percentSuf
    datePre
  simp only [List.append_assoc, List.append_nil]
  rfl

theorem histSearch_doc (p q : Nat) (t : String) :
    histSearch (goalMetricsDoc p q t) = true := by
  rw [goalMetricsDoc_shape p q t]
  apply histSearch_append_right
  apply histSearch_append_right
  apply histSearch_append_right
  apply histSearch_append_right
  apply histSearch_append_right
  apply histSearch_append_right
  apply histSearch_append_right
  apply histSearch_append_right
  apply histSearch_append_right
  apply histSearch_append_right
  apply histSearch_append_right
  decide

theorem histSub_doc (p q : Nat) (t : String) (entry : List Char)
    (htc : t.toList.all (fun c => c.isDigit || c == '-') = true) :
    histSubAll entry (goalMetricsDoc p q t) =
      goalMetricsDocUpdated p q t entry := by
  have hndig : ∀ m : Nat, ∀ c ∈ natChars m, (histLit.headD 'x' == c) = false :=
    fun m => all_beq_false_of_digits '#' (natChars m) (natChars_all_digits m)
      (by decide)
  have hdc : ∀ c ∈ t.toList, (histLit.headD 'x' == c) = false :=
    all_beq_false_of_dateish '#' t.toList htc (by decide) (by decide)
  rw [goalMetricsDoc_shape p q t, goalMetricsDocUpdated_shape p q t entry]
  rw [histSubAll_chunk _ ("# Цель\n".toList) _
    (fun i hi => noStartIn_sound _ _ (by decide) i hi _)]
  rw [histSubAll_chunk _ progressPre _
    (fun i hi => noStartIn_sound _ _ (by decide) i hi _)]
  rw [histSubAll_chunk _ (natChars p) _
    (isPrefixOf_false_head2 histLit (by decide) (natChars p) _ (hndig p))]
  rw [histSubAll_chunk _ progressSuf _
    (fun i hi => noStartIn_sound _ _ (by decide) i hi _)]
  rw [histSubAll_chunk _ ("\n".toList) _
    (fun i hi => noStartIn_sound _ _ (by decide) i hi _)]
  rw [histSubAll_chunk _ percentPre _
    (fun i hi => noStartIn_sound _ _ (by decide) i hi _)]
  rw [histSubAll_chunk _ (natChars q) _
    (isPrefixOf_false_head2 histLit (by decide) (natChars q) _ (hndig q))]
  rw [histSubAll_chunk _ percentSuf _
    (fun i hi => noStartIn_sound _ _ (by decide) i hi _)]
  rw [histSubAll_chunk _ ("\n".toList) _
    (fun i hi => noStartIn_sound _ _ (by decide) i hi _)]
  rw [histSubAll_chunk _ datePre _
    (fun i hi => noStartIn_sound _ _ (by decide) i hi _)]
  rw [histSubAll_chunk _ t.toList _
    (isPrefixOf_false_head2 histLit (by decide) t.toList _ hdc)]
  rw [List.append_nil]
  rw [histSubAll_tail]

/-! ### Claim C8: auto_update_metrics update rules -/


theorem progressStep_doc (ev p q : Nat) (d0 : String)
    (hd0c : d0.toList.all (fun c => c.isDigit || c == '-') = true) :
    progressStep ev (goalMetricsDoc p q d0) =
      (if 0 < ev then (goalMetricsDoc (min 10 (p + ev)) q d0, true)
       else (goalMetricsDoc p q d0, false)) := by
  unfold progressStep
  rw [findNum_progress_doc p q d0]
  by_cases h : ev > 0
  · rw [if_pos h, if_pos h]
    show (subNumAll progressPre progressSuf (natChars (min 10 (p + ev)))
      (goalMetricsDoc p q d0), true) = _
    rw [subNum_progress_doc p q (min 10 (p + ev)) d0 hd0c]
  · rw [if_neg h, if_neg h]

theorem percentStep_doc (n p q : Nat) (d0 : String)
    (hd0c : d0.toList.all (fun c => c.isDigit || c == '-') = true) :
    percentStep n (goalMetricsDoc p q d0) =
      (if 0 < n then (goalMetricsDoc p n d0, true)
       else (goalMetricsDoc p q d0, false)) := by
  unfold percentStep
  by_cases h : n > 0
  · rw [if_pos h, if_pos h]
    rw [subNum_percent_doc p q n d0 hd0c]
  · rw [if_neg h, if_neg h]

theorem dateStep_doc (p q : Nat) (d0 today : String)
    (h10 : d0.toList.length = 10) (hdp : isDatePrefix d0.toList = true) :
    dateStep today (goalMetricsDoc p q d0) = goalMetricsDoc p q today := by
  unfold dateStep subDateAll
  have := subDate_doc p q d0 today h10 hdp
  unfold subDateAll at this
  exact this

theorem histStep_doc (p q : Nat) (t : String) (entry : List Char)
    (htc : t.toList.all (fun c => c.isDigit || c == '-') = true) :
    histStep entry (goalMetricsDoc p q t) = goalMetricsDocUpdated p q t entry := by
  unfold histStep
  rw [histSearch_doc p q t]
  rw [if_pos rfl]
  exact histSub_doc p q t entry htc

/-- **C8 (amended).** The metrics updater: (i) its returned flag is True
exactly when (the day has evidence AND the document contains the progress
pattern) OR the computed operations percentage is positive — NOT when a
field actually changes; (ii) when the flag is False the file content is not
written back; (iii) on a well-formed goal document the evidence counter
becomes min(10, old + evidence count) when the evidence branch fires, the
percentage is overwritten with the computed value when positive, the date
stamp is refreshed, and the history entry is inserted below the history
header. -/
theorem claim8_amended (r : ReflectionData) (today dateStr d0 : String)
    (p q : Nat)
    (h10 : d0.toList.length = 10) (hdp : isDatePrefix d0.toList = true)
    (hd0c : d0.toList.all (fun c => c.isDigit || c == '-') = true)
    (htc : today.toList.all (fun c => c.isDigit || c == '-') = true) :
    (∀ content : List Char, (update_goal_metrics r today dateStr content).2 =
      ((decide (0 < r.evidence_done.length) &&
        (findNum progressPre progressSuf content).isSome) ||
       decide (0 < calculate_operations_percentage r))) ∧
    (∀ content : List Char,
      (update_goal_metrics r today dateStr content).2 = false →
      update_goal_file r today dateStr content = content) ∧
    (update_goal_metrics r today dateStr (goalMetricsDoc p q d0) =
      (if 0 < r.evidence_done.length ∨ 0 < calculate_operations_percentage r then
        (goalMetricsDocUpdated
          (if 0 < r.evidence_done.length then
            min 10 (p + r.evidence_done.length) else p)
          (if 0 < calculate_operations_percentage r then
            calculate_operations_percentage r else q)
          today
          (historyEntry today dateStr r.evidence_done.length
            (calculate_operations_percentage r)), true)
      else (goalMetricsDoc p q today, false))) := by
  have hp2 : ∀ content : List Char,
      (progressStep r.evidence_done.length content).2 =
      (decide (0 < r.evidence_done.length) &&
        (findNum progressPre progressSuf content).isSome) := by
    intro content
    unfold progressStep
    by_cases h : r.evidence_done.length > 0
    · rw [if_pos h]
      cases hf : findNum progressPre progressSuf content with
      | none => simp [h]
      | some v => simp [h]
    · rw [if_neg h]
      have h0 : r.evidence_done.length = 0 := by omega
      simp [h0]
  have hq2 : ∀ c : List Char,
      (percentStep (calculate_operations_percentage r) c).2 =
      decide (0 < calculate_operations_percentage r) := by
    intro c
    unfold percentStep
    by_cases h : calculate_operations_percentage r > 0
    · rw [if_pos h]
      simp [h]
    · rw [if_neg h]
      have h0 : calculate_operations_percentage r = 0 := by omega
      simp [h0]
  have hflag : ∀ content : List Char,
      (update_goal_metrics r today dateStr content).2 =
      ((progressStep r.evidence_done.length content).2 ||
       (percentStep (calculate_operations_percentage r)
         (progressStep r.evidence_done.length content).1).2) := by
    intro content
    unfold update_goal_metrics
    cases hC : ((progressStep r.evidence_done.length content).2 ||
       (percentStep (calculate_operations_percentage r)
         (progressStep r.evidence_done.length content).1).2)
    · rw [if_neg Bool.false_ne_true]
    · rw [if_pos rfl]
  refine ⟨?_, ?_, ?_⟩
  · intro content
    rw [hflag content, hp2 content, hq2 _]
  · intro content h
    unfold update_goal_file
    rw [if_neg (by rw [h]; exact Bool.false_ne_true)]
  · unfold update_goal_metrics
    rw [progressStep_doc r.evidence_done.length p q d0 hd0c]
    by_cases hev : 0 < r.evidence_done.length
    · rw [if_pos hev]
      show (if (true ||
          (percentStep (calculate_operations_percentage r)
            (goalMetricsDoc (min 10 (p + r.evidence_done.length)) q d0, true).1).2) =
            true then _ else _) = _
      rw [Bool.true_or, if_pos rfl]
      show (histStep _ (dateStep today
        (percentStep (calculate_operations_percentage r)
          (goalMetricsDoc (min 10 (p + r.evidence_done.length)) q d0)).1), true) = _
      rw [percentStep_doc (calculate_operations_percentage r)
        (min 10 (p + r.evidence_done.length)) q d0 hd0c]
      by_cases hpc : 0 < calculate_operations_percentage r
      · rw [if_pos hpc]
        show (histStep _ (dateStep today
          (goalMetricsDoc (min 10 (p + r.evidence_done.length))
            (calculate_operations_percentage r) d0)), true) = _
        rw [dateStep_doc _ _ d0 today h10 hdp]
        rw [histStep_doc _ _ today _ htc]
        rw [if_pos (Or.inl hev), if_pos hev, if_pos hpc]
      · rw [if_neg hpc]
        show (histStep _ (dateStep today
          (goalMetricsDoc (min 10 (p + r.evidence_done.length)) q d0)), true) = _
        rw [dateStep_doc _ _ d0 today h10 hdp]
        rw [histStep_doc _ _ today _ htc]
        rw [if_pos (Or.inl hev), if_pos hev, if_neg hpc]
    · rw [if_neg hev]
      show (if (false ||
          (percentStep (calculate_operations_percentage r)
            (goalMetricsDoc p q d0, false).1).2) = true then _ else _) = _
      rw [Bool.false_or]
      show (if (percentStep (calculate_operations_percentage r)
          (goalMetricsDoc p q d0)).2 = true then _ else _) = _
      rw [percentStep_doc (calculate_operations_percentage r) p q d0 hd0c]
      by_cases hpc : 0 < calculate_operations_percentage r
      · rw [if_pos hpc]
        show (if true = true then
          (histStep _ (dateStep today
            (goalMetricsDoc p (calculate_operations_percentage r) d0)), true)
          else _) = _
        rw [if_pos rfl]
        rw [dateStep_doc _ _ d0 today h10 hdp]
        rw [histStep_doc _ _ today _ htc]
        rw [if_pos (Or.inr hpc), if_neg hev, if_pos hpc]
      · rw [if_neg hpc]
        show (if false = true then _ else
          (dateStep today (goalMetricsDoc p q d0), false)) = _
        rw [if_neg Bool.false_ne_true]
        rw [dateStep_doc _ _ d0 today h10 hdp]
        rw [if_neg (by
          intro hor
          rcases hor with h | h
          · exact hev h
          · exact hpc h)]

/-- **C8 (counterexample).** The claimed equivalence "returns True iff at
least one field actually changed" fails: on a goal whose evidence counter is
already saturated at 10/10 and which has no percent field, one evidence
entry makes the updater return True — and write the file — although the
progress field re-reads 10 and no percent field exists before or after. -/
theorem claim8_counterexample :
    (update_goal_metrics rdC8 "2025-12-21" "2025-12-20" goalC8).2 = true ∧
    findNum progressPre progressSuf
        (update_goal_metrics rdC8 "2025-12-21" "2025-12-20" goalC8).1 =
      findNum progressPre progressSuf goalC8 ∧
    findNum percentPre percentSuf
        (update_goal_metrics rdC8 "2025-12-21" "2025-12-20" goalC8).1 = none ∧
    findNum percentPre percentSuf goalC8 = none ∧
    update_goal_file rdC8 "2025-12-21" "2025-12-20" goalC8 ≠ goalC8 := by
  refine ⟨rfl, rfl, rfl, rfl, ?_⟩
  decide

/-- Witness for claim C8 at a concrete reflection (two evidence entries,
recorded percent 40) and goal document (progress 3/10, percent 50%, dated
2025-11-30). -/
theorem claim8_witness :
    isDatePrefix "2025-11-30".toList = true ∧
    0 < rdC8w.evidence_done.length ∧
    (update_goal_metrics rdC8w "2026-01-02" "2026-01-01"
        (goalMetricsDoc 3 50 "2025-11-30")).2 = true ∧
    (update_goal_metrics rdC8w "2026-01-02" "2026-01-01"
        (goalMetricsDoc 3 50 "2025-11-30")).1 =
      goalMetricsDocUpdated 5 40 "2026-01-02"
        (historyEntry "2026-01-02" "2026-01-01" 2 40) := by
  have h := claim8_amended rdC8w "2026-01-02" "2026-01-01" "2025-11-30" 3 50
    (by decide) (by decide) (by decide) (by decide)
  have h3 := h.2.2
  rw [if_pos (by decide : 0 < rdC8w.evidence_done.length ∨
    0 < calculate_operations_percentage rdC8w)] at h3
  rw [if_pos (by decide : 0 < rdC8w.evidence_done.length)] at h3
  rw [if_pos (by decide : 0 < calculate_operations_percentage rdC8w)] at h3
  refine ⟨by decide, by decide, ?_, ?_⟩
  · rw [h3]
  · rw [h3]
    set_option maxRecDepth 4096 in
    decide
